import Mathlib

/-!
# Gladelike core: shallow embedding and verification

This file embeds the core of `src/game.js` (the `GladelikeGame` class):
map generation with cellular-automaton input and region pruning
(`generateMap`, `findConnectedRegions`, `floodFill`,
`placeFeatureOnEmptyFloor`), movement legality (`isValidMove`,
`isWallTile`), combat (`performAttack`), monster AI (`moveMonsters`),
entity placement (`placeCharacters`, `placeMonsters`), and the
visibility bookkeeping of `computeFOV` / `computeLightSourceFOV`.

Modelling conventions:
* JS numbers holding tile coordinates are embedded as `ℤ` (coordinates
  can go negative at the map edge before the bounds check fires);
  array indices and counts are `ℕ`.
* `Math.random()`-derived quantities are passed in as explicit
  parameters: a uniform integer pick from a list of length `n` (the JS
  idiom `Math.floor(Math.random() * n)`) is embedded as `r % n` for an
  arbitrary `r : ℕ`, which ranges over exactly the indices `0..n-1`.
* The ROT.js library (the cellular automaton `ROT.Map.Cellular` and the
  shadowcasting `ROT.FOV.PreciseShadowcasting`) is external to the
  repository; its outputs (the generated cell values, and the set of
  tiles visited by a shadowcast together with their floating-point
  falloff values) enter the embedding as parameters.
* Floating-point light/visibility magnitudes are embedded as `ℚ`; the
  claims settled here concern the update structure (max-merge,
  monotonicity), not float rounding.
* The grid globals `MAP_WIDTH`/`MAP_HEIGHT` are embedded as explicit
  parameters `w`/`h` of the map functions; the program instantiates
  them at 80 and 50.
-/

namespace Gladelike

/-- `MAP_WIDTH` from game.js. -/
def MAP_WIDTH : ℕ := 80

/-- `MAP_HEIGHT` from game.js. -/
def MAP_HEIGHT : ℕ := 50

/-- `FOV_RADIUS` from game.js. -/
def FOV_RADIUS : ℕ := 6

/-- `MAX_LEVELS` from game.js. -/
def MAX_LEVELS : ℕ := 5

/-- `BASE_MONSTERS` from game.js. -/
def BASE_MONSTERS : ℕ := 6

/-- A map cell as built by `generateMap`: `{ type: ..., feature?: ... }`.
`feature` is absent (`none`) until a feature is placed. -/
structure Tile where
  type : String
  feature : Option String
deriving DecidableEq

/-- The grid `this.map`, indexed as `map[y][x]`.  `generateMap` assigns
every cell of the 2-D array, so a total function is a faithful model;
out-of-range indices are never read (bounds checks come first). -/
def Grid : Type := ℕ → ℕ → Tile

/-- The list of wall tile types from `isWallTile`. -/
def wallTypes : List String :=
  ["wallDirtTop", "wallDirtSide", "wallInner",
   "wallStoneTop", "wallStoneSide",
   "wallBrickTop", "wallBrickSide1", "wallBrickSide2"]

/-- `isWallTile(tileType)` from game.js. -/
def isWallTile (tileType : String) : Bool :=
  wallTypes.contains tileType

/-- The `impassableFeatures` list inside `isValidMove`. -/
def impassableFeatures : List String := ["tree", "smallTree"]

/-- An entity position (player or NPC); only the coordinates matter for
movement legality and overlap. -/
abbrev Pos : Type := ℤ × ℤ

/-- `isValidMove(x, y)` from game.js: in bounds, not a wall type, no
movement-blocking feature, and no NPC on the cell.  (In the source every
cell of `this.map` is assigned, so the `!tile` guard never fires; the
total-function grid reflects that.) -/
def isValidMove (w h : ℕ) (map : Grid) (npcs : List Pos) (x y : ℤ) : Bool :=
  if x < 0 ∨ x ≥ (w : ℤ) ∨ y < 0 ∨ y ≥ (h : ℤ) then false
  else
    let tile := map y.toNat x.toNat
    if isWallTile tile.type then false
    else if (match tile.feature with
             | some f => impassableFeatures.contains f
             | none => false) then false
    else !(npcs.any (fun npc => npc.1 = x && npc.2 = y))

theorem isValidMove_not_npc {w h : ℕ} {map : Grid} {npcs : List Pos} {x y : ℤ}
    (hv : isValidMove w h map npcs x y = true) : (x, y) ∉ npcs := by
  intro hmem
  unfold isValidMove at hv
  split at hv
  · exact absurd hv (by simp)
  · dsimp only at hv
    split at hv
    · exact absurd hv (by simp)
    · split at hv
      · exact absurd hv (by simp)
      · rw [Bool.not_eq_true', Bool.eq_false_iff] at hv
        exact hv (List.any_eq_true.mpr ⟨(x, y), hmem, by simp⟩)

theorem isValidMove_bounds {w h : ℕ} {map : Grid} {npcs : List Pos} {x y : ℤ}
    (hv : isValidMove w h map npcs x y = true) :
    0 ≤ x ∧ x < (w : ℤ) ∧ 0 ≤ y ∧ y < (h : ℤ) := by
  unfold isValidMove at hv
  split at hv
  · exact absurd hv (by simp)
  · omega

/-! ## Combat: `performAttack` -/

/-- `performAttack(attacker, target)` from game.js, damage path.

The source computes
`damage = Math.floor(Math.random() * (maxDamage - minDamage + 1)) + minDamage`
and doubles it on a 10%-probability critical
(`damage = Math.floor(damage * 2)`, exact on integers), then applies
`target.health = Math.max(0, target.health - damage)`.

The uniform integer `Math.floor(Math.random() * (maxDamage - minDamage + 1))`
is passed in as `r` (with `0 ≤ r ≤ maxDamage - minDamage`), and the 10%
critical coin as `crit`.  Returns `(damage dealt, target health after)`. -/
def performAttack (minDamage maxDamage r : ℤ) (crit : Bool) (targetHealth : ℤ) :
    ℤ × ℤ :=
  let base := r + minDamage
  let damage := if crit then 2 * base else base
  (damage, max 0 (targetHealth - damage))

/-- C2: for `0 ≤ minDamage ≤ maxDamage` and a roll in range, the damage
dealt lies in `[minDamage, 2 * maxDamage]`, the target's health after
the call is exactly `max 0 (old - damage)`, and in particular it is
never negative. -/
theorem performAttack_bounds (minDamage maxDamage r health : ℤ) (crit : Bool)
    (hmin : 0 ≤ minDamage) (hle : minDamage ≤ maxDamage)
    (hr0 : 0 ≤ r) (hr : r ≤ maxDamage - minDamage) :
    minDamage ≤ (performAttack minDamage maxDamage r crit health).1 ∧
    (performAttack minDamage maxDamage r crit health).1 ≤ 2 * maxDamage ∧
    (performAttack minDamage maxDamage r crit health).2 =
      max 0 (health - (performAttack minDamage maxDamage r crit health).1) ∧
    0 ≤ (performAttack minDamage maxDamage r crit health).2 := by
  unfold performAttack
  rcases crit with _ | _ <;>
    simp only [if_true, if_false, Bool.false_eq_true] <;>
    exact ⟨by omega, by omega, by trivial, le_max_left _ _⟩

/-- Witness for C2: a goblin-range attack (damage `[2,5]`, roll 3,
critical) on a target at 8 health deals 10 damage and floors health at 0. -/
theorem performAttack_bounds_witness :
    (2 : ℤ) ≤ (performAttack 2 5 3 true 8).1 ∧
    (performAttack 2 5 3 true 8).1 ≤ 2 * 5 ∧
    (performAttack 2 5 3 true 8).2 =
      max 0 (8 - (performAttack 2 5 3 true 8).1) ∧
    0 ≤ (performAttack 2 5 3 true 8).2 :=
  performAttack_bounds 2 5 3 8 true (by decide) (by decide) (by decide) (by decide)

/-! ## Region analysis: `floodFill` and `findConnectedRegions`

`generateMap` builds a parallel numeric grid `tempMap` (1 = wall,
0 = floor, indexed `tempMap[y][x]`) alongside `this.map`, runs the
flood-fill region finder on it, and prunes all but the largest region. -/

/-- The numeric wall grid `tempMap` (1 = wall, 0 = floor). -/
def TempMap : Type := ℕ → ℕ → ℕ

/-- The 4-neighbour candidate list built inside `floodFill`'s loop
(`{x-1,y}, {x+1,y}, {x,y-1}, {x,y+1}`, in source order). -/
def neighborsOf (c : Pos) : List Pos :=
  [(c.1 - 1, c.2), (c.1 + 1, c.2), (c.1, c.2 - 1), (c.1, c.2 + 1)]

/-- The push condition of `floodFill`: a neighbour is enqueued unless it
is out of bounds, already visited, or a wall. -/
def canPush (w h : ℕ) (tempMap : TempMap) (visited : List Pos) (n : Pos) : Prop :=
  ¬(n.1 < 0 ∨ n.2 < 0 ∨ (w : ℤ) ≤ n.1 ∨ (h : ℤ) ≤ n.2 ∨ n ∈ visited ∨
    tempMap n.2.toNat n.1.toNat = 1)

instance (w h : ℕ) (tempMap : TempMap) (visited : List Pos) (n : Pos) :
    Decidable (canPush w h tempMap visited n) := by
  unfold canPush; infer_instance

/-- The neighbours of `c` that pass the push condition, in source order. -/
def pushList (w h : ℕ) (tempMap : TempMap) (visited : List Pos) (c : Pos) : List Pos :=
  (neighborsOf c).filter (fun n => decide (canPush w h tempMap visited n))

/-- The `while (queue.length > 0)` loop of `floodFill`.  `queue.shift()`
takes from the front; `queue.push` appends.  The loop terminates because
each iteration consumes one queue element and enqueues at most four per
newly visited cell; the explicit `fuel` makes this structural.  Returns
`(region, visited)` — the source shares the `visited` set with the
caller by mutation. -/
def floodFillLoop (w h : ℕ) (tempMap : TempMap) :
    ℕ → List Pos → List Pos → List Pos → List Pos × List Pos
  | 0, _, visited, region => (region, visited)
  | _ + 1, [], visited, region => (region, visited)
  | fuel + 1, c :: queue, visited, region =>
    if c ∈ visited then
      floodFillLoop w h tempMap fuel queue visited region
    else
      floodFillLoop w h tempMap fuel
        (queue ++ pushList w h tempMap (c :: visited) c)
        (c :: visited) (region ++ [c])

/-- Fuel that over-approximates the number of loop iterations: at most
`w*h` cells are ever newly visited, each enqueueing at most 4
neighbours, plus the initial element. -/
def floodFillFuel (w h : ℕ) : ℕ := 4 * w * h + 5

/-- `floodFill(tempMap, startX, startY, visited)` from game.js. -/
def floodFill (w h : ℕ) (tempMap : TempMap) (startX startY : ℤ) (visited : List Pos) :
    List Pos × List Pos :=
  floodFillLoop w h tempMap (floodFillFuel w h) [(startX, startY)] visited []

/-- One step of the scan loop of `findConnectedRegions`: skip visited or
wall cells, otherwise flood-fill from the cell and append the region.
State is `(regions, visited)`. -/
def fcrStep (w h : ℕ) (tempMap : TempMap) (st : List (List Pos) × List Pos) (c : Pos) :
    List (List Pos) × List Pos :=
  if c ∈ st.2 ∨ tempMap c.2.toNat c.1.toNat = 1 then st
  else
    let fr := floodFill w h tempMap c.1 c.2 st.2
    (st.1 ++ [fr.1], fr.2)

/-- The scan order of `findConnectedRegions` (y outer, x inner). -/
def scanCoords (w h : ℕ) : List Pos :=
  (List.range h).flatMap
    (fun (y : ℕ) => (List.range w).map (fun (x : ℕ) => ((x : ℤ), (y : ℤ))))

/-- `findConnectedRegions(tempMap)` from game.js. -/
def findConnectedRegions (w h : ℕ) (tempMap : TempMap) : List (List Pos) :=
  ((scanCoords w h).foldl (fcrStep w h tempMap) ([], [])).1

/-- The largest region kept by `generateMap`.  The source sorts the
region list by descending length with a stable sort and takes index 0,
i.e. the first region of maximal length; this fold computes the same. -/
def largestRegion (regions : List (List Pos)) : List Pos :=
  regions.foldl (fun best r => if r.length > best.length then r else best) []

/-! ## Reachability through floor cells -/

/-- 4-directional adjacency of grid coordinates. -/
def adjacent (a b : Pos) : Prop :=
  (a.1 - b.1).natAbs + (a.2 - b.2).natAbs = 1

/-- Reachability via cells satisfying `P`, by 4-directional steps.  Both
endpoints satisfy `P`. -/
inductive ReachesVia (P : Pos → Prop) : Pos → Pos → Prop
  | refl (c : Pos) (h : P c) : ReachesVia P c c
  | step {a b : Pos} (c : Pos) (hab : ReachesVia P a b) (hadj : adjacent b c)
      (hc : P c) : ReachesVia P a c

theorem adjacent_symm {a b : Pos} (h : adjacent a b) : adjacent b a := by
  unfold adjacent at h ⊢; omega

theorem ReachesVia.mono {P Q : Pos → Prop} {a b : Pos}
    (hPQ : ∀ c, P c → Q c) (h : ReachesVia P a b) : ReachesVia Q a b := by
  induction h with
  | refl hc => exact .refl _ (hPQ _ hc)
  | step c hab hadj hc ih => exact .step c ih hadj (hPQ c hc)

theorem ReachesVia.left {P : Pos → Prop} {a b : Pos}
    (h : ReachesVia P a b) : P a := by
  induction h with
  | refl hc => exact hc
  | step _ _ _ _ ih => exact ih

theorem ReachesVia.right {P : Pos → Prop} {a b : Pos}
    (h : ReachesVia P a b) : P b := by
  cases h with
  | refl hc => exact hc
  | step _ _ _ hc => exact hc

theorem ReachesVia.trans {P : Pos → Prop} {a b c : Pos}
    (h₁ : ReachesVia P a b) (h₂ : ReachesVia P b c) : ReachesVia P a c := by
  induction h₂ with
  | refl _ => exact h₁
  | step d hbd hadj hd ih => exact .step d ih hadj hd

theorem ReachesVia.symm {P : Pos → Prop} {a b : Pos}
    (h : ReachesVia P a b) : ReachesVia P b a := by
  induction h with
  | refl hc => exact .refl _ hc
  | step c hab hadj hc ih =>
    exact .trans (.step _ (.refl c hc) (adjacent_symm hadj) hab.right) ih

/-- A cell is an in-bounds floor cell of `tempMap`. -/
def inBoundsFloor (w h : ℕ) (tempMap : TempMap) (c : Pos) : Prop :=
  0 ≤ c.1 ∧ c.1 < (w : ℤ) ∧ 0 ≤ c.2 ∧ c.2 < (h : ℤ) ∧
    tempMap c.2.toNat c.1.toNat ≠ 1

theorem mem_neighborsOf_adjacent {c n : Pos} (h : n ∈ neighborsOf c) :
    adjacent c n := by
  simp only [neighborsOf, List.mem_cons, List.not_mem_nil, or_false] at h
  rcases h with rfl | rfl | rfl | rfl <;> simp [adjacent] <;> omega

theorem canPush_inBoundsFloor {w h : ℕ} {tempMap : TempMap} {visited : List Pos}
    {n : Pos} (hc : canPush w h tempMap visited n) :
    inBoundsFloor w h tempMap n := by
  unfold canPush at hc
  push_neg at hc
  exact ⟨by omega, by omega, by omega, by omega, hc.2.2.2.2.2⟩

/-- Region monotonicity: the loop only appends to `region`. -/
theorem floodFillLoop_region_mono (w h : ℕ) (tempMap : TempMap) :
    ∀ (fuel : ℕ) (queue visited region : List Pos),
      region ⊆ (floodFillLoop w h tempMap fuel queue visited region).1 := by
  intro fuel
  induction fuel with
  | zero => intro queue visited region; simp [floodFillLoop]
  | succ n ih =>
    intro queue visited region
    cases queue with
    | nil => simp [floodFillLoop]
    | cons c rest =>
      by_cases hv : c ∈ visited
      · simpa [floodFillLoop, hv] using ih rest visited region
      · simp only [floodFillLoop, hv, if_false]
        exact fun d hd =>
          ih (rest ++ pushList w h tempMap (c :: visited) c) (c :: visited)
            (region ++ [c]) (List.mem_append_left _ hd)

/-- Soundness of the flood-fill loop: every cell of the final region is
an in-bounds floor cell reachable from `start` through cells of the
final region, provided the current region and queue satisfy the natural
invariants. -/
theorem floodFillLoop_sound (w h : ℕ) (tempMap : TempMap) (start : Pos) :
    ∀ (fuel : ℕ) (queue visited region : List Pos),
      (∀ c ∈ region, inBoundsFloor w h tempMap c ∧
          ReachesVia (· ∈ region) start c) →
      (∀ c ∈ queue, inBoundsFloor w h tempMap c ∧
          (c = start ∨ ∃ b ∈ region, adjacent b c)) →
      ∀ c ∈ (floodFillLoop w h tempMap fuel queue visited region).1,
        inBoundsFloor w h tempMap c ∧
          ReachesVia (· ∈ (floodFillLoop w h tempMap fuel queue visited region).1)
            start c := by
  intro fuel
  induction fuel with
  | zero =>
    intro queue visited region hreg _ c hc
    simp only [floodFillLoop] at hc ⊢
    exact hreg c hc
  | succ n ih =>
    intro queue visited region hreg hq
    cases queue with
    | nil =>
      intro c hc
      simp only [floodFillLoop] at hc ⊢
      exact hreg c hc
    | cons c₀ rest =>
      by_cases hv : c₀ ∈ visited
      · simp only [floodFillLoop, hv, if_true]
        exact ih rest visited region hreg
          (fun c hc => hq c (List.mem_cons_of_mem _ hc))
      · simp only [floodFillLoop, hv, if_false]
        have hc₀ := hq c₀ (List.mem_cons_self _ _)
        have hreg' : ∀ c ∈ region ++ [c₀], inBoundsFloor w h tempMap c ∧
            ReachesVia (· ∈ region ++ [c₀]) start c := by
          intro c hc
          rcases List.mem_append.mp hc with hc | hc
          · exact ⟨(hreg c hc).1,
              (hreg c hc).2.mono (fun d hd => List.mem_append_left _ hd)⟩
          · rcases List.mem_singleton.mp hc with rfl
            refine ⟨hc₀.1, ?_⟩
            rcases hc₀.2 with rfl | ⟨b, hb, hadj⟩
            · exact .refl c (List.mem_append_right _ (List.mem_singleton_self _))
            · exact .step c
                ((hreg b hb).2.mono (fun d hd => List.mem_append_left _ hd))
                hadj (List.mem_append_right _ (List.mem_singleton_self _))
        have hq' : ∀ c ∈ rest ++ pushList w h tempMap (c₀ :: visited) c₀,
            inBoundsFloor w h tempMap c ∧
              (c = start ∨ ∃ b ∈ region ++ [c₀], adjacent b c) := by
          intro c hc
          rcases List.mem_append.mp hc with hc | hc
          · have := hq c (List.mem_cons_of_mem _ hc)
            refine ⟨this.1, ?_⟩
            rcases this.2 with rfl | ⟨b, hb, hadj⟩
            · exact Or.inl rfl
            · exact Or.inr ⟨b, List.mem_append_left _ hb, hadj⟩
          · rcases List.mem_filter.mp hc with ⟨hmem, hpush⟩
            have hpush' := of_decide_eq_true hpush
            exact ⟨canPush_inBoundsFloor hpush',
              Or.inr ⟨c₀, List.mem_append_right _ (List.mem_singleton_self _),
                mem_neighborsOf_adjacent hmem⟩⟩
        exact ih (rest ++ pushList w h tempMap (c₀ :: visited) c₀)
          (c₀ :: visited) (region ++ [c₀]) hreg' hq'

/-- A region as produced by `floodFill`: nonempty, made of in-bounds
floor cells, all mutually reachable through the region from a common
seed. -/
def RegionOK (w h : ℕ) (tempMap : TempMap) (r : List Pos) : Prop :=
  r ≠ [] ∧ ∃ s, ∀ c ∈ r, inBoundsFloor w h tempMap c ∧
    ReachesVia (· ∈ r) s c

theorem floodFill_start_mem (w h : ℕ) (tempMap : TempMap) (x y : ℤ)
    (visited : List Pos) (hvis : (x, y) ∉ visited) :
    (x, y) ∈ (floodFill w h tempMap x y visited).1 := by
  unfold floodFill floodFillFuel
  rw [show 4 * w * h + 5 = (4 * w * h + 4) + 1 from rfl]
  simp only [floodFillLoop, hvis, if_false, List.nil_append]
  exact floodFillLoop_region_mono w h tempMap _ _ _ _
    (List.mem_singleton.mpr rfl)

theorem floodFill_RegionOK (w h : ℕ) (tempMap : TempMap) (x y : ℤ)
    (visited : List Pos) (hb : inBoundsFloor w h tempMap (x, y))
    (hvis : (x, y) ∉ visited) :
    RegionOK w h tempMap (floodFill w h tempMap x y visited).1 := by
  refine ⟨?_, (x, y), ?_⟩
  · exact List.ne_nil_of_mem (floodFill_start_mem w h tempMap x y visited hvis)
  · exact floodFillLoop_sound w h tempMap (x, y) (floodFillFuel w h)
      [(x, y)] visited [] (by simp)
      (by intro c hc; rcases List.mem_singleton.mp hc with rfl; exact ⟨hb, Or.inl rfl⟩)

theorem fcr_fold_ok (w h : ℕ) (tempMap : TempMap) :
    ∀ (L : List Pos),
      (∀ c ∈ L, 0 ≤ c.1 ∧ c.1 < (w : ℤ) ∧ 0 ≤ c.2 ∧ c.2 < (h : ℤ)) →
      ∀ st : List (List Pos) × List Pos,
        (∀ r ∈ st.1, RegionOK w h tempMap r) →
        ∀ r ∈ (L.foldl (fcrStep w h tempMap) st).1, RegionOK w h tempMap r := by
  intro L
  induction L with
  | nil => intro _ st hst; simpa using hst
  | cons c rest ih =>
    intro hL st hst
    simp only [List.foldl_cons]
    refine ih (fun d hd => hL d (List.mem_cons_of_mem _ hd)) _ ?_
    intro r hr
    unfold fcrStep at hr
    split at hr
    · exact hst r hr
    · next hguard =>
      push_neg at hguard
      rcases List.mem_append.mp hr with hr | hr
      · exact hst r hr
      · rcases List.mem_singleton.mp hr with rfl
        have hb := hL c (List.mem_cons_self _ _)
        exact floodFill_RegionOK w h tempMap c.1 c.2 st.2
          ⟨hb.1, hb.2.1, hb.2.2.1, hb.2.2.2, hguard.2⟩ hguard.1

theorem scanCoords_bounds {w h : ℕ} {c : Pos} (hc : c ∈ scanCoords w h) :
    0 ≤ c.1 ∧ c.1 < (w : ℤ) ∧ 0 ≤ c.2 ∧ c.2 < (h : ℤ) := by
  unfold scanCoords at hc
  rcases List.mem_flatMap.mp hc with ⟨y, hy, hmem⟩
  rcases List.mem_map.mp hmem with ⟨x, hx, rfl⟩
  rw [List.mem_range] at hy hx
  exact ⟨Int.natCast_nonneg x, by show (x : ℤ) < (w : ℤ); exact_mod_cast hx,
    Int.natCast_nonneg y, by show (y : ℤ) < (h : ℤ); exact_mod_cast hy⟩

/-- Every region returned by `findConnectedRegions` is a nonempty set of
in-bounds floor cells, internally connected from a seed. -/
theorem findConnectedRegions_ok (w h : ℕ) (tempMap : TempMap) :
    ∀ r ∈ findConnectedRegions w h tempMap, RegionOK w h tempMap r := by
  unfold findConnectedRegions
  exact fcr_fold_ok w h tempMap (scanCoords w h)
    (fun c hc => scanCoords_bounds hc) ([], []) (by simp)

theorem largestRegion_choice (regions : List (List Pos)) :
    largestRegion regions ∈ regions ∨ largestRegion regions = [] := by
  unfold largestRegion
  suffices H : ∀ init : List Pos,
      regions.foldl (fun best r => if r.length > best.length then r else best)
        init ∈ regions ∨
      regions.foldl (fun best r => if r.length > best.length then r else best)
        init = init by
    rcases H [] with h | h
    · exact Or.inl h
    · exact Or.inr h
  induction regions with
  | nil => intro init; simp
  | cons r rest ih =>
    intro init
    simp only [List.foldl_cons]
    by_cases hlen : r.length > init.length
    · simp only [hlen, if_true]
      rcases ih r with h | h
      · exact Or.inl (List.mem_cons_of_mem _ h)
      · exact Or.inl (by rw [h]; exact List.mem_cons_self _ _)
    · simp only [hlen, if_false]
      rcases ih init with h | h
      · exact Or.inl (List.mem_cons_of_mem _ h)
      · exact Or.inr h

theorem largestRegion_le (regions : List (List Pos)) :
    ∀ r ∈ regions, r.length ≤ (largestRegion regions).length := by
  unfold largestRegion
  suffices H : ∀ init : List Pos,
      init.length ≤ (regions.foldl
        (fun best r => if r.length > best.length then r else best) init).length ∧
      ∀ r ∈ regions, r.length ≤ (regions.foldl
        (fun best r => if r.length > best.length then r else best) init).length by
    exact (H []).2
  induction regions with
  | nil => intro init; simp
  | cons r rest ih =>
    intro init
    simp only [List.foldl_cons]
    by_cases hlen : r.length > init.length
    · simp only [hlen, if_true]
      refine ⟨le_of_lt (lt_of_lt_of_le hlen (ih r).1), ?_⟩
      intro r' hr'
      rcases List.mem_cons.mp hr' with heq | hr'
      · rw [heq]; exact (ih r).1
      · exact (ih r).2 r' hr'
    · simp only [hlen, if_false]
      refine ⟨(ih init).1, ?_⟩
      intro r' hr'
      rcases List.mem_cons.mp hr' with heq | hr'
      · rw [heq]; exact le_trans (by omega) (ih init).1
      · exact (ih init).2 r' hr'

/-! ## `generateMap`: the level-generation pipeline

`generateMap` (a) derives an effective sub-rectangle from the level,
(b) fills `tempMap`/`this.map` from the ROT.js cellular-automaton
callback (the automaton is external; its per-cell output enters as
`gen`, with ROT's convention value `1` = floor, `0` = wall), (c) prunes
all floor regions but the largest, and (d) places the single stairs or
victory-door feature.  The per-cell floor-variant random pick enters as
`floorPick`, the feature-placement random index as `featIdx`. -/

/-- The level-themed wall type (the `switch (this.currentLevel)` used
for every wall cell in `generateMap`). -/
def wallTypeFor (level : ℕ) : String :=
  match level with
  | 1 => "wallDirtTop"
  | 2 => "wallStoneTop"
  | 3 => "wallBrickTop"
  | 4 => "wallStoneSide"
  | 5 => "wallBrickSide1"
  | _ => "wallStoneTop"

/-- The level-themed floor-type pool (the `switch` in the floor branch
of the generator callback). -/
def floorTypesFor (level : ℕ) : List String :=
  match level with
  | 1 => ["floorDirt1", "floorDirt2", "floorDirt3"]
  | 2 => ["floorStone1", "floorStone2"]
  | 3 => ["floorStone2", "floorStone3"]
  | 4 => ["floorGrass1", "floorGrass2"]
  | 5 => ["floorStone3", "floorDark"]
  | _ => ["floorStone1", "floorStone2"]

/-- `floorTypes[Math.floor(Math.random() * floorTypes.length)]`. -/
def floorTypePick (level : ℕ) (r : ℕ) : String :=
  (floorTypesFor level).getD (r % (floorTypesFor level).length) "floorStone1"

/-- `effectiveWidth`: 60% of the full width on levels ≤ 3, 80% on
levels 4–5 (`Math.floor(w * 0.6)` = `w * 6 / 10` at the program's
dimensions). -/
def effectiveWidth (w level : ℕ) : ℕ :=
  if level ≤ 3 then w * 6 / 10 else w * 8 / 10

/-- `effectiveHeight`, as for `effectiveWidth`. -/
def effectiveHeight (h level : ℕ) : ℕ :=
  if level ≤ 3 then h * 6 / 10 else h * 8 / 10

/-- `marginX = Math.floor((MAP_WIDTH - effectiveWidth) / 2)`. -/
def marginX (w level : ℕ) : ℕ := (w - effectiveWidth w level) / 2

/-- `marginY = Math.floor((MAP_HEIGHT - effectiveHeight) / 2)`. -/
def marginY (h level : ℕ) : ℕ := (h - effectiveHeight h level) / 2

/-- The `tempMap` after the generator callback: wall outside the
effective area; inside it, wall iff the automaton value is `0`. -/
def tempMapOf (w h level : ℕ) (gen : ℕ → ℕ → ℕ) : TempMap := fun y x =>
  if x < marginX w level ∨ x ≥ marginX w level + effectiveWidth w level ∨
     y < marginY h level ∨ y ≥ marginY h level + effectiveHeight h level then 1
  else if gen y x = 0 then 1 else 0

/-- `this.map` after the generator callback: level-themed wall tiles on
wall cells, a random level-themed floor variant on floor cells; no
features yet. -/
def mapAfterGen (w h level : ℕ) (gen floorPick : ℕ → ℕ → ℕ) : Grid := fun y x =>
  if tempMapOf w h level gen y x = 1 then ⟨wallTypeFor level, none⟩
  else ⟨floorTypePick level (floorPick y x), none⟩

/-- The regions found on the generated `tempMap`. -/
def regionsOf (w h level : ℕ) (gen : ℕ → ℕ → ℕ) : List (List Pos) :=
  findConnectedRegions w h (tempMapOf w h level gen)

/-- The pruning loop of `generateMap` applied to `this.map`: every floor
cell not in the largest region becomes a level-themed wall. -/
def prunedGrid (w h level : ℕ) (map : Grid) (tempMap : TempMap)
    (largest : List Pos) : Grid := fun y x =>
  if x < w ∧ y < h ∧ tempMap y x = 0 ∧ ((x : ℤ), (y : ℤ)) ∉ largest then
    ⟨wallTypeFor level, none⟩
  else map y x

/-- `this.map` after region pruning. -/
def mapPruned (w h level : ℕ) (gen floorPick : ℕ → ℕ → ℕ) : Grid :=
  prunedGrid w h level (mapAfterGen w h level gen floorPick)
    (tempMapOf w h level gen) (largestRegion (regionsOf w h level gen))

/-- Cell scan order used by `placeFeatureOnEmptyFloor` (y outer, x
inner); these cells are in bounds by construction. -/
def allCells (w h : ℕ) : List (ℕ × ℕ) :=
  (List.range h).flatMap
    (fun (y : ℕ) => (List.range w).map (fun (x : ℕ) => (x, y)))

/-- The `availableTiles` list of `placeFeatureOnEmptyFloor`: floor
(non-wall) cells carrying no feature, in scan order. -/
def availableTiles (w h : ℕ) (map : Grid) : List (ℕ × ℕ) :=
  (allCells w h).filter
    (fun c => !isWallTile (map c.2 c.1).type && (map c.2 c.1).feature.isNone)

/-- `placeFeatureOnEmptyFloor(featureType)` from game.js: choose a
uniformly random available tile and set its `feature`; if none is
available the map is unchanged (the source returns `false`). -/
def placeFeatureOnEmptyFloor (w h : ℕ) (map : Grid) (featureType : String)
    (r : ℕ) : Grid :=
  let avail := availableTiles w h map
  if avail.isEmpty then map
  else
    let c := avail.getD (r % avail.length) (0, 0)
    fun y x =>
      if x = c.1 ∧ y = c.2 then ⟨(map c.2 c.1).type, some featureType⟩
      else map y x

/-- The feature placed at the end of `generateMap`: stairs on levels
`< MAX_LEVELS`, the victory door on the final level. -/
def featureFor (level : ℕ) : String :=
  if level < MAX_LEVELS then "stairsDown" else "door"

/-- One attempt of `generateMap`: `none` when no floor region was found
(the source then logs and recursively retries), otherwise the pruned
map with the single stairs/door feature placed. -/
def generateMapAttempt (w h level : ℕ) (gen floorPick : ℕ → ℕ → ℕ)
    (featIdx : ℕ) : Option Grid :=
  if regionsOf w h level gen = [] then none
  else some (placeFeatureOnEmptyFloor w h (mapPruned w h level gen floorPick)
    (featureFor level) featIdx)

/-- The retry recursion of `generateMap` (`return this.generateMap()` on
a degenerate attempt), unfolded `fuel` times.  Each attempt draws fresh
randomness, so the random sources are streams indexed by attempt; the
source recursion has no retry counter, so `fuel` is only an unfolding
depth: a `none` result means the recursion is still retrying after
`fuel` attempts. -/
def generateMapIter (w h level : ℕ) :
    ℕ → (ℕ → ℕ → ℕ → ℕ) → (ℕ → ℕ → ℕ → ℕ) → (ℕ → ℕ) → Option Grid
  | 0, _, _, _ => none
  | fuel + 1, gens, fps, fis =>
    match generateMapAttempt w h level (gens 0) (fps 0) (fis 0) with
    | some m => some m
    | none => generateMapIter w h level fuel (fun i => gens (i + 1))
        (fun i => fps (i + 1)) (fun i => fis (i + 1))

/-! ## C1: connectivity of the pruned map -/

/-- An in-bounds floor (non-wall) tile of a grid. -/
def floorCell (w h : ℕ) (m : Grid) (c : Pos) : Prop :=
  0 ≤ c.1 ∧ c.1 < (w : ℤ) ∧ 0 ≤ c.2 ∧ c.2 < (h : ℤ) ∧
    isWallTile ((m c.2.toNat c.1.toNat).type) = false

instance (w h : ℕ) (m : Grid) (c : Pos) : Decidable (floorCell w h m c) := by
  unfold floorCell; infer_instance

theorem wallTypeFor_isWall (level : ℕ) :
    isWallTile (wallTypeFor level) = true := by
  rcases level with _ | _ | _ | _ | _ | _ | n
  · decide
  · decide
  · decide
  · decide
  · decide
  · decide
  · exact (by decide : isWallTile "wallStoneTop" = true)

theorem floorTypesFor_length_pos (level : ℕ) :
    0 < (floorTypesFor level).length := by
  rcases level with _ | _ | _ | _ | _ | _ | n
  · decide
  · decide
  · decide
  · decide
  · decide
  · decide
  · exact (by decide :
      0 < (["floorStone1", "floorStone2"] : List String).length)

theorem floorTypesFor_not_wall (level : ℕ) :
    ∀ s ∈ floorTypesFor level, isWallTile s = false := by
  rcases level with _ | _ | _ | _ | _ | _ | n
  · decide
  · decide
  · decide
  · decide
  · decide
  · decide
  · exact (by decide : ∀ s ∈ (["floorStone1", "floorStone2"] : List String),
      isWallTile s = false)

theorem floorTypePick_not_wall (level r : ℕ) :
    isWallTile (floorTypePick level r) = false := by
  unfold floorTypePick
  refine floorTypesFor_not_wall level _ ?_
  have hlt := Nat.mod_lt r (floorTypesFor_length_pos level)
  rw [List.getD_eq_getElem _ _ hlt]
  exact List.getElem_mem hlt

theorem tempMapOf_cases (w h level : ℕ) (gen : ℕ → ℕ → ℕ) (y x : ℕ) :
    tempMapOf w h level gen y x = 1 ∨ tempMapOf w h level gen y x = 0 := by
  unfold tempMapOf
  split
  · exact Or.inl rfl
  · split
    · exact Or.inl rfl
    · exact Or.inr rfl

/-- A non-wall cell of the pruned map is a floor cell of `tempMap`
retained by the pruning, i.e. it lies in the largest region. -/
theorem mapPruned_floor_mem {w h level : ℕ} {gen fp : ℕ → ℕ → ℕ} {x y : ℕ}
    (hx : x < w) (hy : y < h)
    (hnw : isWallTile ((mapPruned w h level gen fp) y x).type = false) :
    ((x : ℤ), (y : ℤ)) ∈ largestRegion (regionsOf w h level gen) ∧
      tempMapOf w h level gen y x = 0 := by
  unfold mapPruned prunedGrid at hnw
  split at hnw
  · rw [wallTypeFor_isWall] at hnw; cases hnw
  · next hcond =>
    unfold mapAfterGen at hnw
    split at hnw
    · rw [wallTypeFor_isWall] at hnw; cases hnw
    · next htemp =>
      have h0 := (tempMapOf_cases w h level gen y x).resolve_left htemp
      push_neg at hcond
      exact ⟨hcond hx hy h0, h0⟩

/-- Conversely, a cell of the largest region survives the pruning as a
floor cell. -/
theorem mem_largest_floorCell {w h level : ℕ} {gen fp : ℕ → ℕ → ℕ} {c : Pos}
    (hc : c ∈ largestRegion (regionsOf w h level gen)) :
    floorCell w h (mapPruned w h level gen fp) c := by
  rcases largestRegion_choice (regionsOf w h level gen) with hmem | hnil
  · have hok := (findConnectedRegions_ok w h (tempMapOf w h level gen) _ hmem).2
    obtain ⟨s, hs⟩ := hok
    have hb := (hs c hc).1
    obtain ⟨hx0, hxw, hy0, hyh, hnw⟩ := hb
    have h0 := (tempMapOf_cases w h level gen c.2.toNat c.1.toNat).resolve_left hnw
    refine ⟨hx0, hxw, hy0, hyh, ?_⟩
    unfold mapPruned prunedGrid
    split
    · next hcond =>
      have hce : ((c.1.toNat : ℤ), (c.2.toNat : ℤ)) = c := by
        rw [Int.toNat_of_nonneg hx0, Int.toNat_of_nonneg hy0]
      rw [hce] at hcond
      exact absurd hc hcond.2.2.2
    · unfold mapAfterGen
      rw [if_neg (by omega)]
      exact floorTypePick_not_wall level _
  · rw [hnil] at hc; cases hc

/-- `placeFeatureOnEmptyFloor` never changes a cell's `type`. -/
theorem placeFeature_type (w h : ℕ) (m : Grid) (ft : String) (r : ℕ)
    (y x : ℕ) :
    ((placeFeatureOnEmptyFloor w h m ft r) y x).type = (m y x).type := by
  unfold placeFeatureOnEmptyFloor
  split
  · rfl
  · dsimp only
    split
    · next hc => rw [hc.1, hc.2]
    · rfl

theorem floorCell_placeFeature_iff (w h : ℕ) (m : Grid) (ft : String) (r : ℕ)
    (c : Pos) :
    floorCell w h (placeFeatureOnEmptyFloor w h m ft r) c ↔ floorCell w h m c := by
  unfold floorCell
  rw [placeFeature_type]

/-- A floor cell of the pruned map lies in the retained largest region. -/
theorem floorCell_mem_largest {w h level : ℕ} {gen fp : ℕ → ℕ → ℕ} {c : Pos}
    (hc : floorCell w h (mapPruned w h level gen fp) c) :
    c ∈ largestRegion (regionsOf w h level gen) := by
  obtain ⟨hx0, hxw, hy0, hyh, hnw⟩ := hc
  have hmem := (@mapPruned_floor_mem w h level gen fp c.1.toNat c.2.toNat
    (by omega) (by omega) hnw).1
  rwa [show ((c.1.toNat : ℤ), (c.2.toNat : ℤ)) = c from by
    rw [Int.toNat_of_nonneg hx0, Int.toNat_of_nonneg hy0]] at hmem

/-- C1: the floor (non-wall) tiles of every map produced by a successful
`generateMap` attempt form a single 4-directionally connected region:
every floor tile is reachable from every other floor tile through floor
tiles, because only the largest region found by `findConnectedRegions`
is kept as floor and every other previously-floor cell is converted to
wall. -/
theorem generatedMap_connected (w h level : ℕ) (gen fp : ℕ → ℕ → ℕ)
    (fi : ℕ) (m : Grid) (hm : generateMapAttempt w h level gen fp fi = some m)
    (p q : Pos) (hp : floorCell w h m p) (hq : floorCell w h m q) :
    ReachesVia (floorCell w h m) p q := by
  unfold generateMapAttempt at hm
  split at hm
  · cases hm
  · rcases Option.some_inj.mp hm with rfl
    rw [floorCell_placeFeature_iff] at hp hq
    have hpl := floorCell_mem_largest hp
    have hql := floorCell_mem_largest hq
    rcases largestRegion_choice (regionsOf w h level gen) with hmem | hnil
    · obtain ⟨s, hs⟩ :=
        (findConnectedRegions_ok w h (tempMapOf w h level gen) _ hmem).2
      have hmono : ∀ c, c ∈ largestRegion (regionsOf w h level gen) →
          floorCell w h (placeFeatureOnEmptyFloor w h
            (mapPruned w h level gen fp) (featureFor level) fi) c := by
        intro c hc
        exact (floorCell_placeFeature_iff w h _ _ _ c).mpr
          (mem_largest_floorCell hc)
      exact ((ReachesVia.mono hmono (hs p hpl).2).symm).trans
        (ReachesVia.mono hmono (hs q hql).2)
    · rw [hnil] at hpl; cases hpl

/-- Witness for C1: a 3×3 level-1 generation whose effective area is the
single cell `(1,1)`; the lone floor tile reaches itself. -/
theorem generatedMap_connected_witness :
    ReachesVia (floorCell 3 3 (placeFeatureOnEmptyFloor 3 3
      (mapPruned 3 3 1 (fun _ _ => 1) (fun _ _ => 0)) (featureFor 1) 0))
      (1, 1) (1, 1) :=
  generatedMap_connected 3 3 1 (fun _ _ => 1) (fun _ _ => 0) 0 _ rfl
    (1, 1) (1, 1) (by decide) (by decide)

/-! ## C4: exactly one stairs/door feature, uniformly placed -/

theorem mem_allCells {w h : ℕ} {c : ℕ × ℕ} :
    c ∈ allCells w h ↔ c.1 < w ∧ c.2 < h := by
  unfold allCells
  constructor
  · intro hc
    rcases List.mem_flatMap.mp hc with ⟨y, hy, hmem⟩
    rcases List.mem_map.mp hmem with ⟨x, hx, rfl⟩
    rw [List.mem_range] at hy hx
    exact ⟨hx, hy⟩
  · intro ⟨h1, h2⟩
    exact List.mem_flatMap.mpr ⟨c.2, List.mem_range.mpr h2,
      List.mem_map.mpr ⟨c.1, List.mem_range.mpr h1, rfl⟩⟩

theorem allCells_nodup (w h : ℕ) : (allCells w h).Nodup := by
  unfold allCells
  rw [List.nodup_flatMap]
  constructor
  · intro y _
    refine List.Nodup.map ?_ (List.nodup_range _)
    intro a b hab
    simpa using congrArg Prod.fst hab
  · refine List.Pairwise.imp ?_ (List.nodup_range _)
    intro a b hab p hpa hpb
    rcases List.mem_map.mp hpa with ⟨x, _, rfl⟩
    rcases List.mem_map.mp hpb with ⟨x', _, heq⟩
    have hba : b = a := congrArg Prod.snd heq
    exact hab hba.symm

theorem countP_eq_one_of_nodup_mem {α : Type} [BEq α] [LawfulBEq α] {l : List α}
    {a : α} (hnd : l.Nodup) (ha : a ∈ l) :
    l.countP (fun x => x == a) = 1 := by
  induction l with
  | nil => cases ha
  | cons b l ih =>
    rw [List.countP_cons]
    rcases List.nodup_cons.mp hnd with ⟨hb, hnd'⟩
    by_cases hba : b = a
    · subst hba
      have h0 : l.countP (fun x => x == b) = 0 := by
        rw [List.countP_eq_zero]
        intro x hx
        simp only [beq_iff_eq]
        intro hxb
        exact hb (hxb ▸ hx)
      simp [h0]
    · have ha' : a ∈ l := by
        rcases List.mem_cons.mp ha with h | h
        · exact absurd h.symm hba
        · exact h
      simp [ih hnd' ha', hba]

theorem mapPruned_feature_none (w h level : ℕ) (gen fp : ℕ → ℕ → ℕ) (y x : ℕ) :
    (mapPruned w h level gen fp y x).feature = none := by
  unfold mapPruned prunedGrid
  split
  · rfl
  · unfold mapAfterGen
    split <;> rfl

theorem availableTiles_ne_nil {w h level : ℕ} {gen fp : ℕ → ℕ → ℕ}
    (hne : regionsOf w h level gen ≠ []) :
    availableTiles w h (mapPruned w h level gen fp) ≠ [] := by
  obtain ⟨r, hr⟩ := List.exists_mem_of_ne_nil _ hne
  have hok := findConnectedRegions_ok w h (tempMapOf w h level gen) r hr
  have hrpos : 0 < r.length :=
    List.length_pos.mpr hok.1
  have hlarge : 0 < (largestRegion (regionsOf w h level gen)).length :=
    lt_of_lt_of_le hrpos (largestRegion_le (regionsOf w h level gen) r hr)
  obtain ⟨d, hd⟩ := List.exists_mem_of_ne_nil _ (List.length_pos.mp hlarge)
  have hfc := @mem_largest_floorCell w h level gen fp d hd
  obtain ⟨hx0, hxw, hy0, hyh, hnw⟩ := hfc
  have hmem2 : ((d.1.toNat, d.2.toNat) : ℕ × ℕ) ∈
      availableTiles w h (mapPruned w h level gen fp) := by
    refine List.mem_filter.mpr ⟨mem_allCells.mpr ⟨by omega, by omega⟩, ?_⟩
    simp only [Bool.and_eq_true, Bool.not_eq_true', Option.isNone_iff_eq_none]
    exact ⟨hnw, mapPruned_feature_none w h level gen fp _ _⟩
  exact List.ne_nil_of_mem hmem2

/-- The cell picked by the uniform random index in
`placeFeatureOnEmptyFloor` during `generateMap`. -/
def chosenCell (w h level : ℕ) (gen fp : ℕ → ℕ → ℕ) (fi : ℕ) : ℕ × ℕ :=
  let avail := availableTiles w h (mapPruned w h level gen fp)
  avail.getD (fi % avail.length) (0, 0)

theorem chosenCell_mem {w h level : ℕ} {gen fp : ℕ → ℕ → ℕ} (fi : ℕ)
    (hne : availableTiles w h (mapPruned w h level gen fp) ≠ []) :
    chosenCell w h level gen fp fi ∈
      availableTiles w h (mapPruned w h level gen fp) := by
  unfold chosenCell
  have hpos : 0 < (availableTiles w h (mapPruned w h level gen fp)).length :=
    List.length_pos.mpr hne
  have hlt := Nat.mod_lt fi hpos
  rw [List.getD_eq_getElem _ _ hlt]
  exact List.getElem_mem hlt

/-- On a non-degenerate attempt, the generated map is the pruned map
with the feature written at the chosen cell. -/
theorem generateMapAttempt_eq {w h level : ℕ} {gen fp : ℕ → ℕ → ℕ} {fi : ℕ}
    (hne : regionsOf w h level gen ≠ []) :
    generateMapAttempt w h level gen fp fi =
      some (fun y x =>
        if x = (chosenCell w h level gen fp fi).1 ∧
           y = (chosenCell w h level gen fp fi).2 then
          ⟨(mapPruned w h level gen fp (chosenCell w h level gen fp fi).2
              (chosenCell w h level gen fp fi).1).type,
            some (featureFor level)⟩
        else mapPruned w h level gen fp y x) := by
  unfold generateMapAttempt
  rw [if_neg (by simpa using hne)]
  congr 1
  unfold placeFeatureOnEmptyFloor chosenCell
  rw [if_neg (by simpa [List.isEmpty_iff] using
    @availableTiles_ne_nil w h level gen fp hne)]

/-- C4: a successful `generateMap` attempt produces a grid with exactly
one featured cell; that cell is the uniformly chosen feature-free floor
tile, its feature is `stairsDown` below `MAX_LEVELS` and the victory
`door` on the final level, it is a non-wall tile, it carried no feature
before placement, and every feature-free floor tile is the choice of
some random index. -/
theorem generatedMap_unique_feature (w h level : ℕ) (gen fp : ℕ → ℕ → ℕ)
    (fi : ℕ) (m : Grid) (hm : generateMapAttempt w h level gen fp fi = some m) :
    ((allCells w h).filter
        (fun d => ((m d.2 d.1).feature).isSome)).length = 1 ∧
    (m (chosenCell w h level gen fp fi).2
        (chosenCell w h level gen fp fi).1).feature =
      some (featureFor level) ∧
    isWallTile ((m (chosenCell w h level gen fp fi).2
        (chosenCell w h level gen fp fi).1).type) = false ∧
    (mapPruned w h level gen fp (chosenCell w h level gen fp fi).2
        (chosenCell w h level gen fp fi).1).feature = none ∧
    chosenCell w h level gen fp fi ∈
      availableTiles w h (mapPruned w h level gen fp) ∧
    (∀ t ∈ availableTiles w h (mapPruned w h level gen fp),
      ∃ r : ℕ, chosenCell w h level gen fp r = t) := by
  have hne : regionsOf w h level gen ≠ [] := by
    intro hnil
    rw [generateMapAttempt, if_pos hnil] at hm
    cases hm
  rw [@generateMapAttempt_eq w h level gen fp fi hne] at hm
  rcases Option.some_inj.mp hm with rfl
  set c := chosenCell w h level gen fp fi with hc
  have hmem := @chosenCell_mem w h level gen fp fi
    (@availableTiles_ne_nil w h level gen fp hne)
  have hcAll : c ∈ allCells w h := (List.mem_filter.mp hmem).1
  have hfilter := (List.mem_filter.mp hmem).2
  simp only [Bool.and_eq_true, Bool.not_eq_true', Option.isNone_iff_eq_none]
    at hfilter
  refine ⟨?_, ?_, ?_, hfilter.2, hmem, ?_⟩
  · -- exactly one featured cell
    have hcongr : ∀ d ∈ allCells w h,
        (((fun y x =>
            if x = c.1 ∧ y = c.2 then
              ⟨(mapPruned w h level gen fp c.2 c.1).type,
                some (featureFor level)⟩
            else mapPruned w h level gen fp y x : Grid)
          d.2 d.1).feature).isSome = (d == c) := by
      intro d _
      dsimp only
      by_cases hd : d.1 = c.1 ∧ d.2 = c.2
      · rw [if_pos hd]
        have hdc : d = c := Prod.ext hd.1 hd.2
        simp [hdc]
      · rw [if_neg hd, mapPruned_feature_none]
        have hdc : ¬(d = c) := fun hdc => hd (by rw [hdc]; exact ⟨rfl, rfl⟩)
        simp [hdc]
    rw [List.filter_congr hcongr, ← List.countP_eq_length_filter]
    exact countP_eq_one_of_nodup_mem (allCells_nodup w h) hcAll
  · simp
  · rw [show (((fun y x =>
        if x = c.1 ∧ y = c.2 then
          ⟨(mapPruned w h level gen fp c.2 c.1).type, some (featureFor level)⟩
        else mapPruned w h level gen fp y x : Grid) c.2 c.1)).type =
        (mapPruned w h level gen fp c.2 c.1).type from by simp]
    exact hfilter.1
  · intro t ht
    obtain ⟨i, hi, hti⟩ := List.mem_iff_getElem.mp ht
    refine ⟨i, ?_⟩
    show (availableTiles w h (mapPruned w h level gen fp)).getD
      (i % (availableTiles w h (mapPruned w h level gen fp)).length) (0, 0) = t
    rw [Nat.mod_eq_of_lt hi, List.getD_eq_getElem _ _ hi]
    exact hti

/-- Witness for C4: the 3×3 level-1 generation places exactly one
stairs feature on its single floor tile. -/
theorem generatedMap_unique_feature_witness :
    ((allCells 3 3).filter
        (fun d => (((placeFeatureOnEmptyFloor 3 3
          (mapPruned 3 3 1 (fun _ _ => 1) (fun _ _ => 0)) (featureFor 1) 0)
          d.2 d.1).feature).isSome)).length = 1 ∧
    ((placeFeatureOnEmptyFloor 3 3
        (mapPruned 3 3 1 (fun _ _ => 1) (fun _ _ => 0)) (featureFor 1) 0)
        (chosenCell 3 3 1 (fun _ _ => 1) (fun _ _ => 0) 0).2
        (chosenCell 3 3 1 (fun _ _ => 1) (fun _ _ => 0) 0).1).feature =
      some (featureFor 1) ∧
    isWallTile (((placeFeatureOnEmptyFloor 3 3
        (mapPruned 3 3 1 (fun _ _ => 1) (fun _ _ => 0)) (featureFor 1) 0)
        (chosenCell 3 3 1 (fun _ _ => 1) (fun _ _ => 0) 0).2
        (chosenCell 3 3 1 (fun _ _ => 1) (fun _ _ => 0) 0).1).type) = false ∧
    (mapPruned 3 3 1 (fun _ _ => 1) (fun _ _ => 0)
        (chosenCell 3 3 1 (fun _ _ => 1) (fun _ _ => 0) 0).2
        (chosenCell 3 3 1 (fun _ _ => 1) (fun _ _ => 0) 0).1).feature = none ∧
    chosenCell 3 3 1 (fun _ _ => 1) (fun _ _ => 0) 0 ∈
      availableTiles 3 3 (mapPruned 3 3 1 (fun _ _ => 1) (fun _ _ => 0)) ∧
    (∀ t ∈ availableTiles 3 3 (mapPruned 3 3 1 (fun _ _ => 1) (fun _ _ => 0)),
      ∃ r : ℕ, chosenCell 3 3 1 (fun _ _ => 1) (fun _ _ => 0) r = t) :=
  generatedMap_unique_feature 3 3 1 (fun _ _ => 1) (fun _ _ => 0) 0 _ rfl

/-! ## C9: the regeneration retry loop is uncapped

`generateMap` handles a degenerate outcome with
`if (regions.length === 0) { console.error(...); return this.generateMap(); }`
— a plain recursive retry with no counter, no cap and no fatal-error
path.  `generateMapIter` unfolds that recursion; `none` after `fuel`
unfoldings means the recursion is still retrying. -/

theorem findConnectedRegions_allWall (w h : ℕ) (tempMap : TempMap)
    (hall : ∀ y x, tempMap y x = 1) :
    findConnectedRegions w h tempMap = [] := by
  unfold findConnectedRegions
  suffices H : ∀ (L : List Pos) (st : List (List Pos) × List Pos),
      L.foldl (fcrStep w h tempMap) st = st by
    rw [H]
  intro L
  induction L with
  | nil => intro st; rfl
  | cons c rest ih =>
    intro st
    rw [List.foldl_cons, fcrStep, if_pos (Or.inr (hall _ _)), ih]

theorem regionsOf_degenerate (w h level : ℕ) :
    regionsOf w h level (fun _ _ => 0) = [] := by
  refine findConnectedRegions_allWall w h _ (fun y x => ?_)
  unfold tempMapOf
  split
  · rfl
  · rw [if_pos rfl]

/-- Helper: on a persistently degenerate generator stream the retry
recursion never returns, at any unfolding depth. -/
theorem generateMapIter_none_of_degenerate (w h level : ℕ) :
    ∀ (fuel : ℕ) (gens fps : ℕ → ℕ → ℕ → ℕ) (fis : ℕ → ℕ),
      (∀ i, regionsOf w h level (gens i) = []) →
      generateMapIter w h level fuel gens fps fis = none := by
  intro fuel
  induction fuel with
  | zero => intro gens fps fis _; rfl
  | succ n ih =>
    intro gens fps fis hdeg
    have hatt : generateMapAttempt w h level (gens 0) (fps 0) (fis 0) = none := by
      unfold generateMapAttempt
      rw [if_pos (hdeg 0)]
    simp only [generateMapIter, hatt]
    exact ih _ _ _ (fun i => hdeg (i + 1))

/-- Counterexample for C9: there is no retry cap after which
`generateMap`'s regeneration recursion stops (successfully or with a
fatal error): at the program's 80×50 dimensions, on a generator stream
whose every attempt is all-wall, the recursion is still retrying after
any number of unfoldings.  The claim that the loop is capped and
exhausting the cap is reported as fatal is therefore false. -/
theorem generateMap_retry_cap_counterexample :
    ¬ ∃ cap : ℕ, (generateMapIter MAP_WIDTH MAP_HEIGHT 1 cap
      (fun _ => fun _ _ => 0) (fun _ => fun _ _ => 0)
      (fun _ => 0)).isSome = true := by
  rintro ⟨cap, hcap⟩
  rw [generateMapIter_none_of_degenerate MAP_WIDTH MAP_HEIGHT 1 cap _ _ _
    (fun _ => regionsOf_degenerate MAP_WIDTH MAP_HEIGHT 1)] at hcap
  cases hcap

/-- C9 (amended): the regeneration loop in `generateMap` is *not*
capped: whenever every attempt of the generator stream yields zero floor
regions, the recursion keeps retrying past any bound, and no fatal error
is ever reported — the source retries forever on persistently degenerate
output. -/
theorem generateMap_retry_unbounded (w h level fuel : ℕ)
    (gens fps : ℕ → ℕ → ℕ → ℕ) (fis : ℕ → ℕ)
    (hdeg : ∀ i, regionsOf w h level (gens i) = []) :
    generateMapIter w h level fuel gens fps fis = none :=
  generateMapIter_none_of_degenerate w h level fuel gens fps fis hdeg

/-- Witness for C9 (amended): a 3×3 all-wall stream is still retrying
after 4 unfoldings. -/
theorem generateMap_retry_unbounded_witness :
    generateMapIter 3 3 1 4 (fun _ => fun _ _ => 0) (fun _ => fun _ _ => 0)
      (fun _ => 0) = none :=
  generateMap_retry_unbounded 3 3 1 4 _ _ _
    (fun _ => regionsOf_degenerate 3 3 1)

/-! ## Visibility: `computeFOV` and `computeLightSourceFOV`

`visibleTiles` and `exploredTiles` are JS objects mapping coordinate
keys to numbers (`undefined` for missing keys), embedded as
`Pos → Option ℚ`.  The shadowcasting itself is ROT.js
(`ROT.FOV.PreciseShadowcasting`); a shadowcast enters the embedding as
the list `F` of tiles its `compute` callback visits.  The per-tile
numeric values the callbacks compute from `Math.sqrt`/`Math.pow`
(distance falloff, flickered intensity) enter as functions `Pos → ℚ`:
the claims below are about the update structure, not float rounding. -/

/-- A coordinate-keyed JS number map (`visibleTiles`/`exploredTiles`). -/
def VisMap : Type := Pos → Option ℚ

/-- A light source's shadowcast for one tick: the footprint visited by
its `compute` callback, and the `flickeredVisibility` value per tile
(already including `baseVisibility * light.currentIntensity`). -/
def Light : Type := List Pos × (Pos → ℚ)

/-- The explored-map effect of the player part of `computeFOV`:
`if (!this.exploredTiles[key]) this.exploredTiles[key] = 0` for every
tile of the player's FOV footprint (JS falsiness: missing or `0`). -/
def playerFOVExplored (explored : VisMap) (F : List Pos) : VisMap := fun c =>
  if c ∈ F then
    (if (explored c).getD 0 = 0 then some 0 else explored c)
  else explored c

/-- The visible-map effect of the player part of `computeFOV`:
`visibleTiles` is cleared (`this.visibleTiles = {}`) and set to the
computed falloff value on exactly the FOV footprint. -/
def playerFOVVisible (F : List Pos) (vals : Pos → ℚ) : VisMap := fun c =>
  if c ∈ F then some (vals c) else none

/-- The explored-map update of `computeLightSourceFOV`: for in-bounds
footprint tiles,
`exploredTiles[key] = Math.max(exploredTiles[key] || 0, flickeredVisibility * 0.3)`. -/
def lightFOVExplored (w h : ℕ) (explored : VisMap) (FL : List Pos)
    (ct : Pos → ℚ) : VisMap := fun c =>
  if (0 ≤ c.1 ∧ c.1 < (w : ℤ) ∧ 0 ≤ c.2 ∧ c.2 < (h : ℤ)) ∧ c ∈ FL then
    some (max ((explored c).getD 0) (ct c * (3 / 10)))
  else explored c

/-- The visible-map update of `computeLightSourceFOV`: for in-bounds
footprint tiles,
`visibleTiles[key] = Math.max(visibleTiles[key] || 0, flickeredVisibility)`. -/
def lightFOVVisible (w h : ℕ) (visible : VisMap) (FL : List Pos)
    (ct : Pos → ℚ) : VisMap := fun c =>
  if (0 ≤ c.1 ∧ c.1 < (w : ℤ) ∧ 0 ≤ c.2 ∧ c.2 < (h : ℤ)) ∧ c ∈ FL then
    some (max ((visible c).getD 0) (ct c))
  else visible c

/-- The full explored-map effect of one `computeFOV` call: the player
pass, then one `computeLightSourceFOV` pass per light source in order. -/
def computeFOVExplored (w h : ℕ) (explored : VisMap) (F : List Pos)
    (lights : List Light) : VisMap :=
  lights.foldl (fun e l => lightFOVExplored w h e l.1 l.2)
    (playerFOVExplored explored F)

/-- The full visible-map result of one `computeFOV` call. -/
def computeFOVVisible (w h : ℕ) (F : List Pos) (vals : Pos → ℚ)
    (lights : List Light) : VisMap :=
  lights.foldl (fun v l => lightFOVVisible w h v l.1 l.2)
    (playerFOVVisible F vals)

/-- The effect of `goDownstairs` on `exploredTiles`: of everything it
calls (`generateMap`, `placeCharacters`, `placeFirepits`,
`placeMonsters`, `computeFOV`, `updateCamera`, `drawMap`, `updateUI`,
`showLevelMessage`), only `computeFOV` touches `exploredTiles` — there
is no reset of the explored map anywhere in the depth transition. -/
def goDownstairsExplored (w h : ℕ) (explored : VisMap) (F : List Pos)
    (lights : List Light) : VisMap :=
  computeFOVExplored w h explored F lights

/-- The explored map after a sequence of ticks, each recomputing FOV
with its own player footprint and light shadowcasts. -/
def ticksExplored (w h : ℕ) (explored : VisMap)
    (ticks : List (List Pos × List Light)) : VisMap :=
  ticks.foldl (fun e t => computeFOVExplored w h e t.1 t.2) explored

theorem playerFOVExplored_mono {explored : VisMap} {F : List Pos} {c : Pos}
    {v : ℚ} (hc : explored c = some v) :
    ∃ v', playerFOVExplored explored F c = some v' ∧ v ≤ v' := by
  unfold playerFOVExplored
  split
  · split
    · next h0 =>
      rw [hc] at h0
      simp only [Option.getD_some] at h0
      exact ⟨0, rfl, le_of_eq h0⟩
    · exact ⟨v, hc, le_refl v⟩
  · exact ⟨v, hc, le_refl v⟩

theorem lightFOVExplored_mono {w h : ℕ} {explored : VisMap} {FL : List Pos}
    {ct : Pos → ℚ} {c : Pos} {v : ℚ} (hc : explored c = some v) :
    ∃ v', lightFOVExplored w h explored FL ct c = some v' ∧ v ≤ v' := by
  unfold lightFOVExplored
  split
  · refine ⟨max ((explored c).getD 0) (ct c * (3 / 10)), rfl, ?_⟩
    rw [hc]
    exact le_max_left _ _
  · exact ⟨v, hc, le_refl v⟩

theorem lightsFold_explored_mono {w h : ℕ} (lights : List Light) :
    ∀ (e : VisMap) (c : Pos) (v : ℚ), e c = some v →
      ∃ v', (lights.foldl (fun e l => lightFOVExplored w h e l.1 l.2) e) c
        = some v' ∧ v ≤ v' := by
  induction lights with
  | nil => exact fun e c v hc => ⟨v, hc, le_refl v⟩
  | cons l rest ih =>
    intro e c v hc
    obtain ⟨v₁, h₁, hle₁⟩ := @lightFOVExplored_mono w h e l.1 l.2 c v hc
    obtain ⟨v₂, h₂, hle₂⟩ := ih _ c v₁ h₁
    exact ⟨v₂, h₂, le_trans hle₁ hle₂⟩

theorem computeFOVExplored_mono {w h : ℕ} {e : VisMap} {F : List Pos}
    {lights : List Light} {c : Pos} {v : ℚ} (hc : e c = some v) :
    ∃ v', computeFOVExplored w h e F lights c = some v' ∧ v ≤ v' := by
  obtain ⟨v₁, h₁, hle₁⟩ := @playerFOVExplored_mono e F c v hc
  obtain ⟨v₂, h₂, hle₂⟩ := lightsFold_explored_mono lights _ c v₁ h₁
  exact ⟨v₂, h₂, le_trans hle₁ hle₂⟩

/-- C3 (amended): within a depth `explored[k]` never decreases across
ticks — `computeFOV` only initializes missing entries to `0` and
`computeLightSourceFOV` only raises entries via `Math.max` — but a depth
transition does **not** reset the explored map: `goDownstairs` never
clears `exploredTiles`, its only effect on it is one more `computeFOV`,
so every entry from the previous depth persists (possibly raised). -/
theorem explored_monotone_and_persists (w h : ℕ) (e : VisMap)
    (ticks : List (List Pos × List Light)) (F : List Pos)
    (lights : List Light) (c : Pos) (v : ℚ) (hc : e c = some v) :
    (∃ v', ticksExplored w h e ticks c = some v' ∧ v ≤ v') ∧
    (∃ v', goDownstairsExplored w h e F lights c = some v' ∧ v ≤ v') := by
  constructor
  · unfold ticksExplored
    induction ticks generalizing e v with
    | nil => exact ⟨v, hc, le_refl v⟩
    | cons t rest ih =>
      obtain ⟨v₁, h₁, hle₁⟩ := @computeFOVExplored_mono w h e t.1 t.2 c v hc
      obtain ⟨v₂, h₂, hle₂⟩ := ih _ v₁ h₁
      exact ⟨v₂, h₂, le_trans hle₁ hle₂⟩
  · exact computeFOVExplored_mono hc

/-- Witness for C3 (amended): an explored entry of value `1/2` at
`(2,3)` survives a tick and a depth transition unchanged. -/
theorem explored_monotone_and_persists_witness :
    (∃ v', ticksExplored MAP_WIDTH MAP_HEIGHT
      (fun c => if c = (2, 3) then some (1 / 2) else none)
      [([(0, 0)], [])] (2, 3) = some v' ∧ (1 : ℚ) / 2 ≤ v') ∧
    (∃ v', goDownstairsExplored MAP_WIDTH MAP_HEIGHT
      (fun c => if c = (2, 3) then some (1 / 2) else none)
      [(0, 0)] [] (2, 3) = some v' ∧ (1 : ℚ) / 2 ≤ v') :=
  explored_monotone_and_persists MAP_WIDTH MAP_HEIGHT _ _ _ _ (2, 3) (1 / 2)
    (by simp)

/-- Counterexample for C3: the claim says that immediately after
`goDownstairs` the explored map contains no entries from the previous
depth; but `goDownstairs` never clears `exploredTiles`, so a
previous-depth entry at `(2,3)` is still present (value `1/2`, not
erased) after the transition. -/
theorem goDownstairs_explored_not_reset :
    goDownstairsExplored MAP_WIDTH MAP_HEIGHT
      (fun c => if c = (2, 3) then some (1 / 2) else none)
      [(0, 0)] [] (2, 3) = some (1 / 2) := by
  unfold goDownstairsExplored computeFOVExplored playerFOVExplored
  simp

/-! ## C7: light merge is a maximum, never a sum -/

/-- C7: when a light source's shadowcast footprint is merged into the
visible map, the resulting value at each in-bounds footprint tile is the
maximum of the previously stored visibility and the light's flickered
contribution; in particular, after `computeFOV` a tile lit by both the
player's FOV and one light source holds `max` of the two values, which
is strictly below their sum whenever both are positive (the merge is
never additive). -/
theorem lightSource_merge_max (w h : ℕ) (visible : VisMap) (FL F : List Pos)
    (ct vals : Pos → ℚ) (c : Pos)
    (hb : 0 ≤ c.1 ∧ c.1 < (w : ℤ) ∧ 0 ≤ c.2 ∧ c.2 < (h : ℤ))
    (hFL : c ∈ FL) (hF : c ∈ F) :
    lightFOVVisible w h visible FL ct c =
      some (max ((visible c).getD 0) (ct c)) ∧
    computeFOVVisible w h F vals [(FL, ct)] c =
      some (max (vals c) (ct c)) ∧
    (0 < vals c → 0 < ct c → max (vals c) (ct c) < vals c + ct c) := by
  refine ⟨?_, ?_, ?_⟩
  · unfold lightFOVVisible
    rw [if_pos ⟨hb, hFL⟩]
  · unfold computeFOVVisible
    simp only [List.foldl_cons, List.foldl_nil]
    unfold lightFOVVisible
    rw [if_pos ⟨hb, hFL⟩]
    unfold playerFOVVisible
    rw [if_pos hF]
    rfl
  · intro h1 h2
    rcases le_total (vals c) (ct c) with hle | hle
    · rw [max_eq_right hle]; linarith
    · rw [max_eq_left hle]; linarith

/-- Witness for C7: a tile at `(1,1)` seen by the player at `2/5` and
lit by a torch at `7/10` ends at `max (2/5) (7/10) = 7/10`, not the sum. -/
theorem lightSource_merge_max_witness :
    lightFOVVisible MAP_WIDTH MAP_HEIGHT (fun _ => some (2 / 5)) [(1, 1)]
      (fun _ => 7 / 10) (1, 1) =
      some (max (((fun _ => some (2 / 5) : VisMap) (1, 1)).getD 0)
        ((fun _ => (7 : ℚ) / 10) (1, 1))) ∧
    computeFOVVisible MAP_WIDTH MAP_HEIGHT [(1, 1)] (fun _ => 2 / 5)
      [([(1, 1)], fun _ => 7 / 10)] (1, 1) =
      some (max ((fun _ => (2 : ℚ) / 5) (1, 1)) ((fun _ => (7 : ℚ) / 10) (1, 1))) ∧
    (0 < (fun _ => (2 : ℚ) / 5) (1, 1) → 0 < (fun _ => (7 : ℚ) / 10) (1, 1) →
      max ((fun _ => (2 : ℚ) / 5) (1, 1)) ((fun _ => (7 : ℚ) / 10) (1, 1)) <
        (fun _ => (2 : ℚ) / 5) (1, 1) + (fun _ => (7 : ℚ) / 10) (1, 1)) :=
  lightSource_merge_max MAP_WIDTH MAP_HEIGHT (fun _ => some (2 / 5)) [(1, 1)]
    [(1, 1)] (fun _ => 7 / 10) (fun _ => 2 / 5) (1, 1)
    (by decide) (by decide) (by decide)

/-! ## C8/C10: the FOV transparency callback

Both `computeFOV` and `computeLightSourceFOV` pass the same callback to
`ROT.FOV.PreciseShadowcasting`:

`(x, y) => this.isValidMove(x, y) || (in-bounds && this.map[y][x] === 'door')`

The `=== 'door'` comparison tests the map *cell* against a string, so
the callback's semantics is over JS values that could be a tile object
or a string; `generateMap` only ever stores objects.  To capture that,
cells are embedded as a sum. -/

/-- A JS value stored in a map cell: a tile object, or a string (the
value the transparency callback's `=== 'door'` disjunct compares
against; `generateMap` never stores one). -/
inductive Cell where
  | tile (t : Tile)
  | str (s : String)
deriving DecidableEq

/-- A grid of JS cell values. -/
def CGrid : Type := ℕ → ℕ → Cell

/-- JS property read `cell.type`: `undefined` (`none`) on a string. -/
def cellType : Cell → Option String
  | .tile t => some t.type
  | .str _ => none

/-- JS property read `cell.feature`: `undefined` (`none`) on a string. -/
def cellFeature : Cell → Option String
  | .tile t => t.feature
  | .str _ => none

/-- `isValidMove` over JS cell values, with JS dynamic semantics: a
string cell is truthy, its `.type` is `undefined` which is not in
`wallTypes`, and its `.feature` is `undefined`. -/
def isValidMoveC (w h : ℕ) (map : CGrid) (npcs : List Pos) (x y : ℤ) : Bool :=
  if x < 0 ∨ x ≥ (w : ℤ) ∨ y < 0 ∨ y ≥ (h : ℤ) then false
  else
    let tile := map y.toNat x.toNat
    if (match cellType tile with
        | some t => isWallTile t
        | none => false) then false
    else if (match cellFeature tile with
             | some f => impassableFeatures.contains f
             | none => false) then false
    else !(npcs.any (fun npc => npc.1 = x && npc.2 = y))

/-- The transparency callback passed to `ROT.FOV.PreciseShadowcasting`
by `computeFOV` and `computeLightSourceFOV` (identical in both):
`isValidMove(x,y) || (x≥0 && y≥0 && x<W && y<H && map[y][x] === 'door')`. -/
def fovTransparency (w h : ℕ) (map : CGrid) (npcs : List Pos) (x y : ℤ) : Bool :=
  isValidMoveC w h map npcs x y ||
    (decide (0 ≤ x) && decide (0 ≤ y) && decide (x < (w : ℤ)) &&
      decide (y < (h : ℤ)) && (map y.toNat x.toNat == Cell.str "door"))

/-- The cell grid actually built by `generateMap`: every cell is a tile
object `{ type, feature? }`, never a string. -/
def toCellGrid (m : Grid) : CGrid := fun y x => Cell.tile (m y x)

/-- C10: on any grid of tile objects — which is what `generateMap`
builds — the transparency callback returns exactly the same boolean as
`isValidMove` at every coordinate, because its extra
`map[y][x] === 'door'` disjunct compares an object against a string and
is therefore always false. -/
theorem fovTransparency_eq_isValidMove (w h : ℕ) (m : Grid) (npcs : List Pos)
    (x y : ℤ) :
    fovTransparency w h (toCellGrid m) npcs x y = isValidMove w h m npcs x y ∧
    toCellGrid m y.toNat x.toNat ≠ Cell.str "door" := by
  constructor
  · unfold fovTransparency
    have hne : (toCellGrid m y.toNat x.toNat == Cell.str "door") = false := by
      simp [toCellGrid]
    rw [hne]
    simp only [Bool.and_false, Bool.or_false]
    rfl
  · simp [toCellGrid]

/-- Counterexample for C8: on a tile carrying a `tree` feature the
transparency callback returns the boolean `false` — full opacity — not
an intermediate opacity such as 0.3 strictly between 0 and 1: the
callback is `isValidMove(x,y) || (... === 'door')`, a boolean, and
`isValidMove` rejects tree tiles outright. -/
theorem tree_transparency_counterexample :
    fovTransparency MAP_WIDTH MAP_HEIGHT
      (toCellGrid (fun _ _ => ⟨"floorGrass1", some "tree"⟩)) [] 0 0 = false := by
  decide

/-- C8 (amended): the visibility computation's transparency function is
boolean; it assigns full opacity (`false`) to every tile carrying a
`tree` feature — trees fully block vision, not partially — at any
coordinate and independently of NPCs. -/
theorem fovTransparency_tree_opaque (w h : ℕ) (m : Grid) (npcs : List Pos)
    (x y : ℤ) (htree : (m y.toNat x.toNat).feature = some "tree") :
    fovTransparency w h (toCellGrid m) npcs x y = false := by
  have hvalid : isValidMoveC w h (toCellGrid m) npcs x y = false := by
    unfold isValidMoveC
    split
    · rfl
    · dsimp only [toCellGrid, cellType, cellFeature]
      split
      · rfl
      · rw [if_pos (by rw [htree]; decide)]
  unfold fovTransparency
  rw [hvalid]
  simp [toCellGrid]

/-- Witness for C8 (amended): a grass tile with a tree at `(2,2)` is
fully opaque to the shadowcast. -/
theorem fovTransparency_tree_opaque_witness :
    fovTransparency MAP_WIDTH MAP_HEIGHT
      (toCellGrid (fun _ _ => ⟨"floorGrass1", some "tree"⟩)) [] 2 2 = false :=
  fovTransparency_tree_opaque MAP_WIDTH MAP_HEIGHT
    (fun _ _ => ⟨"floorGrass1", some "tree"⟩) [] 2 2 rfl

/-! ## Entities: monster AI, player movement, placement

Entity records (`this.player`, `this.npcs[i]`, `this.monsters[i]`) carry
sprite type and health besides coordinates; the no-overlap and AI-step
claims are about coordinates, so entities are embedded by position.
Combat side effects (health, monster removal on death) enter where they
affect positions: `processMovement` removes a monster whose health
reached 0, embedded by the `killed` outcome of the attack. -/

/-- The entity collections of the game state for one depth. -/
structure Entities where
  player : Pos
  npcs : List Pos
  monsters : List Pos
deriving DecidableEq

/-- The `directions` array of `moveMonsters`. -/
def directions : List Pos := [(-1, 0), (1, 0), (0, -1), (0, 1)]

/-- The direction choice of `moveMonsters` for one monster at
`(mx,my)` against the player at `(px,py)`: within Manhattan distance 5,
a fair coin (`Math.random() < 0.5`, entering as `coin`) picks the
horizontal step toward the player if `dx ≠ 0`, otherwise the vertical
step; if that yields no movement, and always outside the detection
range, a uniformly random cardinal direction
(`directions[Math.floor(Math.random() * 4)]`, entering as `ridx % 4`). -/
def monsterDirection (mx my px py : ℤ) (coin : Bool) (ridx : ℕ) : Pos :=
  let dist := (mx - px).natAbs + (my - py).natAbs
  if dist < 5 then
    let dx : ℤ := if px > mx then 1 else if px < mx then -1 else 0
    let dy : ℤ := if py > my then 1 else if py < my then -1 else 0
    let dir : Pos :=
      if coin = true ∧ dx ≠ 0 then (dx, 0) else (0, if dy ≠ 0 then dy else 0)
    if dir = (0, 0) then directions.getD (ridx % 4) (0, 0) else dir
  else directions.getD (ridx % 4) (0, 0)

/-- One monster's step in `moveMonsters`: if the monster is at Chebyshev
distance ≤ 1 from the player it attacks (`performAttack` +
`modifyHealth`) and does not move; otherwise it moves by the chosen
direction only if the destination passes `isValidMove` and holds
neither the player, an NPC, nor any monster (the current array
`this.monsters`, passed as `others`, which includes the mover itself).
Returns the new position and whether an attack happened. -/
def monsterAction (w h : ℕ) (map : Grid) (npcs : List Pos) (player : Pos)
    (others : List Pos) (m : Pos) (coin : Bool) (ridx : ℕ) : Pos × Bool :=
  let dir := monsterDirection m.1 m.2 player.1 player.2 coin ridx
  let newX := m.1 + dir.1
  let newY := m.2 + dir.2
  if (m.1 - player.1).natAbs ≤ 1 ∧ (m.2 - player.2).natAbs ≤ 1 then
    (m, true)
  else if isValidMove w h map npcs newX newY = true ∧
      ¬(player.1 = newX ∧ player.2 = newY) ∧
      (newX, newY) ∉ npcs ∧ (newX, newY) ∉ others then
    ((newX, newY), false)
  else (m, false)

/-- The `this.monsters.forEach` loop of `moveMonsters`: monsters are
processed in order, each seeing the already-updated positions of its
predecessors (`done`) and the original positions of its successors. -/
def moveMonstersLoop (w h : ℕ) (map : Grid) (npcs : List Pos) (player : Pos)
    (coins : ℕ → Bool) (ridxs : ℕ → ℕ) :
    List Pos → List Pos → ℕ → List Pos
  | done, [], _ => done
  | done, m :: todo, i =>
    moveMonstersLoop w h map npcs player coins ridxs
      (done ++ [(monsterAction w h map npcs player (done ++ m :: todo) m
        (coins i) (ridxs i)).1])
      todo (i + 1)

/-- `moveMonsters()` from game.js, on the entity collections. -/
def moveMonstersEnt (w h : ℕ) (map : Grid) (coins : ℕ → Bool)
    (ridxs : ℕ → ℕ) (e : Entities) : Entities :=
  ⟨e.player, e.npcs,
    moveMonstersLoop w h map e.npcs e.player coins ridxs [] e.monsters 0⟩

/-- `processMovement` from game.js, on the entity collections: a
monster at the destination triggers combat instead of movement (the
monster is removed when the attack kills it — `killed` is the outcome
of the player's `performAttack` roll); otherwise the move happens only
if `isValidMove` allows it; stepping onto stairs (or the victory door
on the final level) returns before any position change — the ensuing
depth transition rebuilds the state via placement. -/
def processMovementEnt (w h level : ℕ) (map : Grid) (e : Entities)
    (dx dy : ℤ) (killed : Bool) : Entities :=
  if dx = 0 ∧ dy = 0 then e
  else
    let newX := e.player.1 + dx
    let newY := e.player.2 + dy
    if (newX, newY) ∈ e.monsters then
      { e with monsters :=
          if killed then e.monsters.erase (newX, newY) else e.monsters }
    else if isValidMove w h map e.npcs newX newY then
      if (map newY.toNat newX.toNat).feature = some "stairsDown" then e
      else if (map newY.toNat newX.toNat).feature = some "door" ∧
          level = MAX_LEVELS then e
      else { e with player := (newX, newY) }
    else e

/-- The spiral search order of the player-placement loop in
`placeCharacters`: for each radius `r` below `max(MAP_WIDTH, MAP_HEIGHT)`,
scan the full square of side `2r+1` centred on the map centre. -/
def searchOrder (w h : ℕ) : List Pos :=
  (List.range (max w h)).flatMap (fun (r : ℕ) =>
    (List.range (2 * r + 1)).flatMap (fun (dyi : ℕ) =>
      (List.range (2 * r + 1)).map (fun (dxi : ℕ) =>
        (((w / 2 : ℕ) : ℤ) + dxi - r, ((h / 2 : ℕ) : ℤ) + dyi - r))))

/-- The player-placement search of `placeCharacters`: the first valid
position in spiral order (`this.npcs` has just been cleared, so
`isValidMove` runs with no NPCs); `none` when the whole search fails
(the source logs an error and returns). -/
def placePlayer (w h : ℕ) (map : Grid) : Option Pos :=
  (searchOrder w h).find? (fun c => isValidMove w h map [] c.1 c.2)

/-- `availableForNPC` in `placeCharacters`: valid-move cells (which
already excludes NPC-occupied ones) that hold neither the player nor an
NPC, in scan order. -/
def npcAvail (w h : ℕ) (map : Grid) (player : Pos) (npcs : List Pos) :
    List Pos :=
  (scanCoords w h).filter (fun c =>
    isValidMove w h map npcs c.1 c.2 &&
    !(decide (player.1 = c.1 ∧ player.2 = c.2)) &&
    !(decide (c ∈ npcs)))

/-- The NPC-placement loop of `placeCharacters`: `numNPCs` rounds, each
picking a uniformly random available cell, stopping early when none is
available. -/
def placeNPCsLoop (w h : ℕ) (map : Grid) (player : Pos) (rng : ℕ → ℕ) :
    ℕ → List Pos → ℕ → List Pos
  | 0, npcs, _ => npcs
  | k + 1, npcs, i =>
    if npcAvail w h map player npcs = [] then npcs
    else placeNPCsLoop w h map player rng k
      (npcs ++ [(npcAvail w h map player npcs).getD
        (rng i % (npcAvail w h map player npcs).length) (0, 0)]) (i + 1)

/-- NPC placement of `placeCharacters`: `numNPCs = max(2, 7 - level)`. -/
def placeNPCsEnt (w h level : ℕ) (map : Grid) (player : Pos)
    (rng : ℕ → ℕ) : List Pos :=
  placeNPCsLoop w h map player rng (max 2 (7 - level)) [] 0

/-- `availableSpots` in `placeMonsters`: valid-move cells holding no
player, NPC or monster, and not the stairs or victory-door tile. -/
def monsterAvail (w h : ℕ) (map : Grid) (player : Pos) (npcs monsters : List Pos) :
    List Pos :=
  (scanCoords w h).filter (fun c =>
    isValidMove w h map npcs c.1 c.2 &&
    !(decide (player.1 = c.1 ∧ player.2 = c.2)) &&
    !(decide (c ∈ npcs)) && !(decide (c ∈ monsters)) &&
    !((map c.2.toNat c.1.toNat).feature == some "stairsDown") &&
    !((map c.2.toNat c.1.toNat).feature == some "door"))

/-- The monster-placement loop of `placeMonsters`. -/
def placeMonstersLoop (w h : ℕ) (map : Grid) (player : Pos)
    (npcs : List Pos) (rng : ℕ → ℕ) : ℕ → List Pos → ℕ → List Pos
  | 0, monsters, _ => monsters
  | k + 1, monsters, i =>
    if monsterAvail w h map player npcs monsters = [] then monsters
    else placeMonstersLoop w h map player npcs rng k
      (monsters ++ [(monsterAvail w h map player npcs monsters).getD
        (rng i % (monsterAvail w h map player npcs monsters).length) (0, 0)])
      (i + 1)

/-- `placeMonsters()` from game.js:
`numMonsters = BASE_MONSTERS + Math.floor(level * 1.5)`, capped at 10%
of the floor tiles counted by `isValidMove` (at these magnitudes
`Math.floor(n * 0.1)` is `n / 10`). -/
def placeMonstersEnt (w h level : ℕ) (map : Grid) (player : Pos)
    (npcs : List Pos) (rng : ℕ → ℕ) : List Pos :=
  placeMonstersLoop w h map player npcs rng
    (min (BASE_MONSTERS + level * 3 / 2)
      (((scanCoords w h).filter
        (fun c => isValidMove w h map npcs c.1 c.2)).length / 10)) [] 0

/-- Level setup as run by `checkAllResourcesLoaded` / `goDownstairs`:
place the player, then the NPCs, then the monsters (the previous
depth's collections are cleared and rebuilt). -/
def placeWorld (w h level : ℕ) (map : Grid) (rngN rngM : ℕ → ℕ) :
    Option Entities :=
  match placePlayer w h map with
  | none => none
  | some p =>
    some ⟨p, placeNPCsEnt w h level map p rngN,
      placeMonstersEnt w h level map p (placeNPCsEnt w h level map p rngN) rngM⟩

/-- No two entities (player, NPC, monster) share a coordinate. -/
def noOverlap (e : Entities) : Prop :=
  (e.player :: (e.npcs ++ e.monsters)).Nodup

instance (e : Entities) : Decidable (noOverlap e) := by
  unfold noOverlap; infer_instance

/-- The states reachable by the game: a level setup, then any
interleaving of monster ticks (`moveMonsters`) and player moves
(`processMovement`); a depth transition rebuilds the state via the
`init` constructor. -/
inductive ReachableState (w h : ℕ) : Entities → Prop
  | init (level : ℕ) (map : Grid) (rngN rngM : ℕ → ℕ) (e : Entities)
      (hp : placeWorld w h level map rngN rngM = some e) :
      ReachableState w h e
  | monsterTick (map : Grid) (coins : ℕ → Bool) (ridxs : ℕ → ℕ)
      {e : Entities} (hr : ReachableState w h e) :
      ReachableState w h (moveMonstersEnt w h map coins ridxs e)
  | playerMove (level : ℕ) (map : Grid) (dx dy : ℤ) (killed : Bool)
      {e : Entities} (hr : ReachableState w h e) :
      ReachableState w h (processMovementEnt w h level map e dx dy killed)

/-! ## C5: the no-overlap invariant -/

theorem getD_mod_mem {α : Type} {l : List α} (hne : l ≠ []) (n : ℕ) (d : α) :
    l.getD (n % l.length) d ∈ l := by
  have hlt := Nat.mod_lt n (List.length_pos.mpr hne)
  rw [List.getD_eq_getElem _ _ hlt]
  exact List.getElem_mem hlt

theorem nodup_build {p : Pos} {ns ms : List Pos} (h1 : ns.Nodup)
    (h2 : ms.Nodup) (h3 : p ∉ ns) (h4 : p ∉ ms)
    (h5 : ∀ c ∈ ms, c ∉ ns) : (p :: (ns ++ ms)).Nodup := by
  rw [List.nodup_cons, List.mem_append, List.nodup_append]
  exact ⟨fun hor => hor.elim h3 h4, h1, h2,
    fun a ha hamem => h5 a hamem ha⟩

theorem nodup_split {p : Pos} {ns ms : List Pos}
    (h : (p :: (ns ++ ms)).Nodup) :
    ns.Nodup ∧ ms.Nodup ∧ p ∉ ns ∧ p ∉ ms ∧ ∀ c ∈ ms, c ∉ ns := by
  rw [List.nodup_cons, List.mem_append, List.nodup_append] at h
  exact ⟨h.2.1, h.2.2.1, fun hn => h.1 (Or.inl hn),
    fun hm => h.1 (Or.inr hm), fun c hc hn => h.2.2.2 hn hc⟩

theorem nodup_append_singleton {l : List Pos} {a : Pos} (h : l.Nodup)
    (ha : a ∉ l) : (l ++ [a]).Nodup := by
  rw [List.nodup_append]
  exact ⟨h, List.nodup_singleton a,
    fun x hx hxa => ha ((List.mem_singleton.mp hxa) ▸ hx)⟩

theorem nodup_mid_replace {d t : List Pos} {m n : Pos}
    (h : (d ++ m :: t).Nodup) (hn : n ∉ d ++ m :: t) :
    (d ++ n :: t).Nodup := by
  rw [List.nodup_middle] at h ⊢
  rw [List.nodup_cons] at h ⊢
  refine ⟨?_, h.2⟩
  intro hmem
  exact hn (by
    rcases List.mem_append.mp hmem with hd | ht
    · exact List.mem_append_left _ hd
    · exact List.mem_append_right _ (List.mem_cons_of_mem _ ht))

theorem npcAvail_spec {w h : ℕ} {map : Grid} {player : Pos}
    {npcs : List Pos} {c : Pos} (hc : c ∈ npcAvail w h map player npcs) :
    isValidMove w h map npcs c.1 c.2 = true ∧ c ≠ player ∧ c ∉ npcs := by
  rcases List.mem_filter.mp hc with ⟨_, hb⟩
  simp only [Bool.and_eq_true, Bool.not_eq_true', decide_eq_false_iff_not]
    at hb
  refine ⟨hb.1.1, ?_, hb.2⟩
  intro hcp
  exact hb.1.2 ⟨by rw [hcp], by rw [hcp]⟩

theorem monsterAvail_spec {w h : ℕ} {map : Grid} {player : Pos}
    {npcs monsters : List Pos} {c : Pos}
    (hc : c ∈ monsterAvail w h map player npcs monsters) :
    isValidMove w h map npcs c.1 c.2 = true ∧ c ≠ player ∧ c ∉ npcs ∧
      c ∉ monsters := by
  rcases List.mem_filter.mp hc with ⟨_, hb⟩
  simp only [Bool.and_eq_true, Bool.not_eq_true', decide_eq_false_iff_not]
    at hb
  refine ⟨hb.1.1.1.1.1, ?_, hb.1.1.1.2, hb.1.1.2⟩
  intro hcp
  exact hb.1.1.1.1.2 ⟨by rw [hcp], by rw [hcp]⟩

theorem placeNPCsLoop_inv (w h : ℕ) (map : Grid) (player : Pos)
    (rng : ℕ → ℕ) :
    ∀ (k : ℕ) (npcs : List Pos) (i : ℕ), npcs.Nodup → player ∉ npcs →
      (placeNPCsLoop w h map player rng k npcs i).Nodup ∧
      player ∉ placeNPCsLoop w h map player rng k npcs i := by
  intro k
  induction k with
  | zero => exact fun npcs i h1 h2 => ⟨h1, h2⟩
  | succ n ih =>
    intro npcs i h1 h2
    rw [placeNPCsLoop]
    split
    · exact ⟨h1, h2⟩
    · next hne =>
      have hmem := getD_mod_mem hne (rng i) ((0, 0) : Pos)
      have hspec := npcAvail_spec hmem
      refine ih _ (i + 1) (nodup_append_singleton h1 hspec.2.2) ?_
      intro hp
      rcases List.mem_append.mp hp with hp | hp
      · exact h2 hp
      · exact hspec.2.1 (List.mem_singleton.mp hp).symm

theorem placeMonstersLoop_inv (w h : ℕ) (map : Grid) (player : Pos)
    (npcs : List Pos) (rng : ℕ → ℕ) :
    ∀ (k : ℕ) (monsters : List Pos) (i : ℕ), monsters.Nodup →
      player ∉ monsters → (∀ c ∈ monsters, c ∉ npcs) →
      (placeMonstersLoop w h map player npcs rng k monsters i).Nodup ∧
      player ∉ placeMonstersLoop w h map player npcs rng k monsters i ∧
      ∀ c ∈ placeMonstersLoop w h map player npcs rng k monsters i,
        c ∉ npcs := by
  intro k
  induction k with
  | zero => exact fun monsters i h1 h2 h3 => ⟨h1, h2, h3⟩
  | succ n ih =>
    intro monsters i h1 h2 h3
    rw [placeMonstersLoop]
    split
    · exact ⟨h1, h2, h3⟩
    · next hne =>
      have hmem := getD_mod_mem hne (rng i) ((0, 0) : Pos)
      have hspec := monsterAvail_spec hmem
      refine ih _ (i + 1) (nodup_append_singleton h1 hspec.2.2.2) ?_ ?_
      · intro hp
        rcases List.mem_append.mp hp with hp | hp
        · exact h2 hp
        · exact hspec.2.1 (List.mem_singleton.mp hp).symm
      · intro c hc
        rcases List.mem_append.mp hc with hc | hc
        · exact h3 c hc
        · rw [List.mem_singleton.mp hc]
          exact hspec.2.2.1

theorem placeWorld_noOverlap {w h level : ℕ} {map : Grid}
    {rngN rngM : ℕ → ℕ} {e : Entities}
    (hp : placeWorld w h level map rngN rngM = some e) : noOverlap e := by
  unfold placeWorld at hp
  rcases hpp : placePlayer w h map with _ | p
  · rw [hpp] at hp; cases hp
  · rw [hpp] at hp
    rcases Option.some_inj.mp hp with rfl
    have hn := placeNPCsLoop_inv w h map p rngN (max 2 (7 - level)) [] 0
      (List.nodup_nil) (List.not_mem_nil p)
    have hm := placeMonstersLoop_inv w h map p
      (placeNPCsEnt w h level map p rngN) rngM
      (min (BASE_MONSTERS + level * 3 / 2)
        (((scanCoords w h).filter (fun c => isValidMove w h map
          (placeNPCsEnt w h level map p rngN) c.1 c.2)).length / 10)) [] 0
      (List.nodup_nil) (List.not_mem_nil p) (by intro c hc; cases hc)
    exact nodup_build hn.1 hm.1 hn.2 hm.2.1 hm.2.2

/-- The position produced by one monster step: unchanged, or a cell
free of the player, all NPCs and all monsters. -/
theorem monsterAction_pos (w h : ℕ) (map : Grid) (npcs : List Pos)
    (player : Pos) (others : List Pos) (m : Pos) (coin : Bool) (ridx : ℕ) :
    (monsterAction w h map npcs player others m coin ridx).1 = m ∨
    ((monsterAction w h map npcs player others m coin ridx).1 ≠ player ∧
     (monsterAction w h map npcs player others m coin ridx).1 ∉ npcs ∧
     (monsterAction w h map npcs player others m coin ridx).1 ∉ others) := by
  unfold monsterAction
  dsimp only
  split
  · exact Or.inl rfl
  · split
    · next hcond =>
      refine Or.inr ⟨?_, hcond.2.2.1, hcond.2.2.2⟩
      intro hpe
      exact hcond.2.1
        ⟨(congrArg Prod.fst hpe).symm, (congrArg Prod.snd hpe).symm⟩
    · exact Or.inl rfl

theorem moveMonstersLoop_inv (w h : ℕ) (map : Grid) (npcs : List Pos)
    (player : Pos) (coins : ℕ → Bool) (ridxs : ℕ → ℕ) :
    ∀ (todo done : List Pos) (i : ℕ), (done ++ todo).Nodup →
      player ∉ done ++ todo → (∀ c ∈ done ++ todo, c ∉ npcs) →
      (moveMonstersLoop w h map npcs player coins ridxs done todo i).Nodup ∧
      player ∉ moveMonstersLoop w h map npcs player coins ridxs done todo i ∧
      ∀ c ∈ moveMonstersLoop w h map npcs player coins ridxs done todo i,
        c ∉ npcs := by
  intro todo
  induction todo with
  | nil =>
    intro done i h1 h2 h3
    rw [List.append_nil] at h1 h2 h3
    exact ⟨h1, h2, h3⟩
  | cons m todo ih =>
    intro done i h1 h2 h3
    rw [moveMonstersLoop]
    rcases monsterAction_pos w h map npcs player (done ++ m :: todo) m
      (coins i) (ridxs i) with hm | ⟨hp, hn, ho⟩
    all_goals (
      set m' := (monsterAction w h map npcs player (done ++ m :: todo) m
        (coins i) (ridxs i)).1 with hm'def
      have hassoc : done ++ [m'] ++ todo = done ++ m' :: todo := by
        rw [List.append_assoc]; rfl)
    · refine ih (done ++ [m']) (i + 1) ?_ ?_ ?_ <;> rw [hassoc, hm] <;>
        assumption
    · refine ih (done ++ [m']) (i + 1) ?_ ?_ ?_ <;> rw [hassoc]
      · exact nodup_mid_replace h1 ho
      · intro hpm
        rcases List.mem_append.mp hpm with hd | ht
        · exact h2 (List.mem_append_left _ hd)
        · rcases List.mem_cons.mp ht with he | ht
          · exact hp he.symm
          · exact h2 (List.mem_append_right _ (List.mem_cons_of_mem _ ht))
      · intro c hc
        rcases List.mem_append.mp hc with hd | ht
        · exact h3 c (List.mem_append_left _ hd)
        · rcases List.mem_cons.mp ht with he | ht
          · rw [he]; exact hn
          · exact h3 c (List.mem_append_right _ (List.mem_cons_of_mem _ ht))

theorem moveMonstersEnt_noOverlap {w h : ℕ} {map : Grid}
    {coins : ℕ → Bool} {ridxs : ℕ → ℕ} {e : Entities}
    (hno : noOverlap e) : noOverlap (moveMonstersEnt w h map coins ridxs e) := by
  obtain ⟨h1, h2, h3, h4, h5⟩ := nodup_split hno
  have hinv := moveMonstersLoop_inv w h map e.npcs e.player coins ridxs
    e.monsters [] 0 (by simpa using h2) (by simpa using h4)
    (by simpa using h5)
  exact nodup_build h1 hinv.1 h3 hinv.2.1 hinv.2.2

theorem processMovementEnt_noOverlap {w h level : ℕ} {map : Grid}
    {e : Entities} {dx dy : ℤ} {killed : Bool} (hno : noOverlap e) :
    noOverlap (processMovementEnt w h level map e dx dy killed) := by
  obtain ⟨h1, h2, h3, h4, h5⟩ := nodup_split hno
  unfold processMovementEnt
  dsimp only
  split
  · exact hno
  · split
    · -- combat: positions unchanged, possibly one monster removed
      rcases killed with _ | _
      · simpa [noOverlap] using hno
      · refine nodup_build h1 (h2.erase _) h3 ?_ ?_
        · intro hmem
          exact h4 (List.mem_of_mem_erase hmem)
        · intro c hc
          exact h5 c (List.mem_of_mem_erase hc)
    · next hnomon =>
      split
      · split
        · exact hno
        · split
          · exact hno
          · -- actual move: new player position is free
            next hval _ _ =>
            refine nodup_build h1 h2 ?_ ?_ h5
            · exact isValidMove_not_npc hval
            · exact hnomon
      · exact hno

/-- C5: at every reachable state — after level setup and any
interleaving of monster ticks and player moves — no two entities among
the player, the NPCs and the monsters occupy the same coordinate:
placement only uses unoccupied tiles, a monster move is applied only if
the destination is free of the player, every NPC and every monster, and
the player entering a monster's tile triggers combat instead of a
position change. -/
theorem noOverlap_invariant (w h : ℕ) (e : Entities)
    (hr : ReachableState w h e) : noOverlap e := by
  induction hr with
  | init level map rngN rngM e hp => exact placeWorld_noOverlap hp
  | monsterTick map coins ridxs hr ih => exact moveMonstersEnt_noOverlap ih
  | playerMove level map dx dy killed hr ih =>
    exact processMovementEnt_noOverlap ih

/-- Witness for C5: a 3×3 map with a single floor tile at `(1,1)` —
the player is placed there, no NPC or monster fits, and the resulting
state has no overlap. -/
theorem noOverlap_invariant_witness :
    noOverlap ⟨(1, 1), [], []⟩ :=
  noOverlap_invariant 3 3 ⟨(1, 1), [], []⟩
    (ReachableState.init 1
      (fun y x => if x = 1 ∧ y = 1 then ⟨"floorDirt1", none⟩
        else ⟨"wallDirtTop", none⟩)
      (fun _ => 0) (fun _ => 0) ⟨(1, 1), [], []⟩ (by decide))

/-! ## C6: the monster AI step -/

/-- Counterexample for C6: monster at `(0,0)`, player at `(3,1)` —
Chebyshev distance 3 (no attack), Manhattan distance 4 (within
detection).  The larger offset is on the x-axis, so an AI preferring
the larger-offset axis must step `(1,0)`; but the code flips a fair
coin between the axes, and with the coin `false` it steps `(0,1)`
along the smaller-offset axis. -/
theorem monsterDirection_counterexample :
    monsterDirection 0 0 3 1 false 0 = (0, 1) ∧
    monsterDirection 0 0 3 1 false 0 ≠ (1, 0) := by
  decide

/-- C6 (amended): for every monster AI step — monster `m`, player
`player`, coin `coin`, random index `ridx`:
* at Chebyshev distance ≤ 1 the monster attacks and does not move;
* otherwise, within Manhattan distance < 5 the axis is chosen by the
  fair coin, not by the larger offset: if the coin is true and the
  horizontal offset is nonzero the monster steps horizontally toward
  the player; otherwise it steps vertically toward the player when that
  offset is nonzero, and falls back to a uniformly random cardinal
  direction when it is zero;
* at Manhattan distance ≥ 5 the direction is a uniformly random
  cardinal one (every cardinal direction is chosen by some index);
* a move is applied only when the destination passes `isValidMove` and
  is free of the player, every NPC and every monster. -/
theorem monsterAI_step (w h : ℕ) (map : Grid) (npcs : List Pos)
    (player m : Pos) (others : List Pos) (coin : Bool) (ridx : ℕ) :
    ((m.1 - player.1).natAbs ≤ 1 ∧ (m.2 - player.2).natAbs ≤ 1 →
      monsterAction w h map npcs player others m coin ridx = (m, true)) ∧
    ((m.1 - player.1).natAbs + (m.2 - player.2).natAbs < 5 →
      (coin = true ∧ m.1 ≠ player.1 →
        monsterDirection m.1 m.2 player.1 player.2 coin ridx =
          (if player.1 > m.1 then 1 else -1, 0)) ∧
      (¬(coin = true ∧ m.1 ≠ player.1) → m.2 ≠ player.2 →
        monsterDirection m.1 m.2 player.1 player.2 coin ridx =
          (0, if player.2 > m.2 then 1 else -1)) ∧
      (¬(coin = true ∧ m.1 ≠ player.1) → m.2 = player.2 →
        monsterDirection m.1 m.2 player.1 player.2 coin ridx =
          directions.getD (ridx % 4) (0, 0))) ∧
    (¬((m.1 - player.1).natAbs + (m.2 - player.2).natAbs < 5) →
      monsterDirection m.1 m.2 player.1 player.2 coin ridx =
        directions.getD (ridx % 4) (0, 0)) ∧
    (∀ d ∈ directions, ∃ i : ℕ, directions.getD (i % 4) (0, 0) = d) ∧
    (¬((m.1 - player.1).natAbs ≤ 1 ∧ (m.2 - player.2).natAbs ≤ 1) →
      (monsterAction w h map npcs player others m coin ridx).2 = false ∧
      ((monsterAction w h map npcs player others m coin ridx).1 = m ∨
        ((monsterAction w h map npcs player others m coin ridx).1 =
            (m.1 + (monsterDirection m.1 m.2 player.1 player.2 coin ridx).1,
             m.2 + (monsterDirection m.1 m.2 player.1 player.2 coin ridx).2) ∧
          isValidMove w h map npcs
            (m.1 + (monsterDirection m.1 m.2 player.1 player.2 coin ridx).1)
            (m.2 + (monsterDirection m.1 m.2 player.1 player.2 coin ridx).2)
            = true ∧
          (monsterAction w h map npcs player others m coin ridx).1 ≠ player ∧
          (monsterAction w h map npcs player others m coin ridx).1 ∉ npcs ∧
          (monsterAction w h map npcs player others m coin ridx).1 ∉ others))) := by
  refine ⟨?_, ?_, ?_, ?_, ?_⟩
  · -- adjacent: attack, no move
    intro hadj
    unfold monsterAction
    dsimp only
    rw [if_pos hadj]
  · -- detection range: coin-based axis choice
    intro hlt
    refine ⟨?_, ?_, ?_⟩
    · rintro ⟨hcoin, hne⟩
      unfold monsterDirection
      dsimp only
      rw [if_pos hlt]
      by_cases hgt : player.1 > m.1
      · have hdxne : (if player.1 > m.1 then (1 : ℤ)
            else if player.1 < m.1 then -1 else 0) ≠ 0 := by
          rw [if_pos hgt]; exact one_ne_zero
        have hA : coin = true ∧ (if player.1 > m.1 then (1 : ℤ)
            else if player.1 < m.1 then -1 else 0) ≠ 0 := ⟨hcoin, hdxne⟩
        rw [if_pos hA, if_pos hgt,
          if_neg (by decide : ¬(((1 : ℤ), (0 : ℤ)) : Pos) = (0, 0)),
          if_pos hgt]
      · have hlt' : player.1 < m.1 := by omega
        have hdxne : (if player.1 > m.1 then (1 : ℤ)
            else if player.1 < m.1 then -1 else 0) ≠ 0 := by
          rw [if_neg hgt, if_pos hlt']; decide
        have hA : coin = true ∧ (if player.1 > m.1 then (1 : ℤ)
            else if player.1 < m.1 then -1 else 0) ≠ 0 := ⟨hcoin, hdxne⟩
        rw [if_pos hA, if_neg hgt, if_pos hlt',
          if_neg (by decide : ¬(((-1 : ℤ), (0 : ℤ)) : Pos) = (0, 0)),
          if_neg hgt]
    · intro hnc hne2
      unfold monsterDirection
      dsimp only
      rw [if_pos hlt]
      have hcond : ¬(coin = true ∧ (if player.1 > m.1 then (1 : ℤ)
          else if player.1 < m.1 then -1 else 0) ≠ 0) := by
        rintro ⟨hc, hd⟩
        refine hnc ⟨hc, ?_⟩
        intro heq
        apply hd
        rw [heq, if_neg (lt_irrefl player.1), if_neg (lt_irrefl player.1)]
      rw [if_neg hcond]
      by_cases hgt : player.2 > m.2
      · rw [if_pos hgt]
        rw [if_pos (by decide : ((1 : ℤ) ≠ 0)), if_neg (by decide :
          ¬(((0 : ℤ), (1 : ℤ)) : Pos) = (0, 0)), if_pos hgt]
      · have hlt' : player.2 < m.2 := by omega
        rw [if_neg hgt, if_pos hlt']
        rw [if_pos (by decide : ((-1 : ℤ) ≠ 0)), if_neg (by decide :
          ¬(((0 : ℤ), (-1 : ℤ)) : Pos) = (0, 0)), if_neg hgt]
    · intro hnc heq2
      unfold monsterDirection
      dsimp only
      rw [if_pos hlt]
      have hcond : ¬(coin = true ∧ (if player.1 > m.1 then (1 : ℤ)
          else if player.1 < m.1 then -1 else 0) ≠ 0) := by
        rintro ⟨hc, hd⟩
        refine hnc ⟨hc, ?_⟩
        intro heq
        apply hd
        rw [heq, if_neg (lt_irrefl player.1), if_neg (lt_irrefl player.1)]
      rw [if_neg hcond, heq2, if_neg (lt_irrefl player.2),
        if_neg (lt_irrefl player.2)]
      rw [if_neg (by decide : ¬((0 : ℤ) ≠ 0)),
        if_pos (by decide : (((0 : ℤ), (0 : ℤ)) : Pos) = (0, 0))]
  · -- outside detection range: random cardinal
    intro hge
    unfold monsterDirection
    dsimp only
    rw [if_neg hge]
  · -- uniformity: every cardinal direction is selected by some index
    intro d hd
    simp only [directions, List.mem_cons, List.not_mem_nil, or_false] at hd
    rcases hd with rfl | rfl | rfl | rfl
    · exact ⟨0, rfl⟩
    · exact ⟨1, rfl⟩
    · exact ⟨2, rfl⟩
    · exact ⟨3, rfl⟩
  · -- not adjacent: no attack; move only into a free cell
    intro hnadj
    unfold monsterAction
    dsimp only
    rw [if_neg hnadj]
    split
    · next hcond =>
      refine ⟨rfl, Or.inr ⟨rfl, hcond.1, ?_, hcond.2.2.1, hcond.2.2.2⟩⟩
      intro hpe
      exact hcond.2.1
        ⟨(congrArg Prod.fst hpe).symm, (congrArg Prod.snd hpe).symm⟩
    · exact ⟨rfl, Or.inl rfl⟩

end Gladelike
